import Mathlib

/-!
Shallow embedding of the call-binding / vectorization / differentiability /
code-generation core of `kernelfunctions/core/boundvariable.py` (classes
`BoundCall` and `BoundVariable`), together with the small external interfaces
it consumes (`Shape`, `AccessType`, `CallMode`, modifier sets, slang type
reflection, and the marshall capability objects).  Pure functions of the
Python source become Lean functions; in-place mutation becomes explicit
state passing; raised exceptions become `Except` / explicit error results.
-/

namespace SlangpyBound

/-- Access mode for a primal or derivative slot (`AccessType` of the native
module: none / read / write / readwrite). -/
inductive AccessType where
  | none
  | read
  | write
  | readwrite
deriving DecidableEq, Repr

/-- Modelled from the spec: the call mode enumeration of the native module
(not under `src/`).  The spec names a Forward (primal) and a Backward mode;
the source's `_calculate_differentiability` additionally has a fall-through
branch commented `todo: fwds`, so a third forward-derivative mode exists. -/
inductive CallMode where
  | prim
  | bwds
  | fwds
deriving DecidableEq, Repr

/-- IO direction of a kernel parameter (`IOType` of `core/enums.py`). -/
inductive IOType where
  | inn
  | out
  | inout
deriving DecidableEq, Repr

/-- Primal/derivative slot enumeration (`PrimType` of `core/enums.py`),
iterated in declaration order by `gen_call_data_code`. -/
inductive PrimType where
  | primal
  | derivative
deriving DecidableEq, Repr

/-- `PrimType.name` as used for `load_<slot>` / `store_<slot>` accessors. -/
def PrimType.nm : PrimType → String
  | .primal => "primal"
  | .derivative => "derivative"

/-- Modelled from the spec: the `Shape` axis-mapping utility of the native
module (not under `src/`): an ordered sequence of integers with a validity
bit; `Shape(None)` is the invalid mapping, `Shape(*m)` wraps the tuple `m`. -/
structure Shape where
  dims : Option (List Int)
deriving DecidableEq, Repr

/-- `Shape.valid`: whether the mapping has been resolved. -/
def Shape.valid (s : Shape) : Bool :=
  s.dims.isSome

/-- `Shape.as_tuple` (defaulting to the empty tuple when invalid; the source
only reads it behind a validity check). -/
def Shape.asTuple (s : Shape) : List Int :=
  s.dims.getD []

/-- `len(shape)`. -/
def Shape.lengthS (s : Shape) : Nat :=
  s.asTuple.length

/-- Slang type reflection as consumed here: a full name, a differentiability
flag and a name-keyed field list (`SlangType` of `core/reflection.py`, not
under `src/`; fields per the spec's kernel-reflection interface). -/
inductive SlangType where
  | mk (fullName : String) (differentiable : Bool) (fields : List (String × SlangType))

/-- Full name of a slang type. -/
def SlangType.fullName : SlangType → String
  | .mk n _ _ => n

/-- Differentiability flag of a slang type. -/
def SlangType.differentiable : SlangType → Bool
  | .mk _ d _ => d

/-- Field list of a slang type. -/
def SlangType.fields : SlangType → List (String × SlangType)
  | .mk _ _ fs => fs

/-- Name lookup in a field list (Python `self.slang_type.fields[name]`;
`Option.none` corresponds to the mapping lookup raising `KeyError`). -/
def SlangType.findField (t : SlangType) (n : String) : Option SlangType :=
  (t.fields.find? (fun p => p.1 == n)).map (·.2)

/-- The set of parameter modifiers relevant to this module (membership of
`ModifierID.inn / out / inout / nodiff` in `slang_modifiers`). -/
structure Modifiers where
  hasIn : Bool
  hasOut : Bool
  hasInout : Bool
  hasNodiff : Bool
deriving DecidableEq, Repr

/-- The marshall capability object paired with each bound variable
(`self.python`): external per the spec's §6 interface.  `reduceType`,
`resolveType` and `resolveDimensionality` take the bind context in the
source; the context is fixed for one call, so it is elided here. -/
structure Marshall where
  hasDerivative : Bool
  isWritable : Bool
  slangType : SlangType
  reduceType : Nat → SlangType
  resolveType : SlangType → SlangType
  resolveDimensionality : SlangType → Int
  genCalldata : List String

/-- The bind context: global dispatch rank (`call_dimensionality`), call
mode, the `strict_broadcasting` option, and the layout lookup used by
explicit vectorization. -/
structure BindContext where
  callDimensionality : Nat
  callMode : CallMode
  strictBroadcasting : Bool
  findTypeByName : String → Option SlangType
  lookupMarshall : Nat → Option Marshall

/-- Python exceptions raised by this module: `BoundVariableException`
(message + offending variable, identified here by its `path`), `ValueError`,
`KeyError` from a failed mapping lookup, and `AssertionError` from a failed
`assert`. -/
inductive PyErr where
  | boundVar (msg : String) (path : String)
  | valueError (msg : String)
  | keyError (key : String)
  | assertionError
deriving DecidableEq, Repr

/-- The mutable attributes of one `BoundVariable` node. -/
structure Attrs where
  name : String
  path : String
  python : Marshall
  access : AccessType × AccessType
  differentiable : Bool
  callDim : Option Int
  vectorMapping : Shape
  vectorType : Option SlangType
  explicitlyVectorized : Bool
  slangType : Option SlangType
  slangModifiers : Modifiers
  variableName : String

/-- A `BoundVariable` tree: `children` is `None` (a leaf) or a dict of child
nodes (a composite); each child's dict key equals its stored `name`. -/
inductive BV where
  | leafV (a : Attrs)
  | nodeV (a : Attrs) (children : List BV)

/-- Attributes of a node. -/
def BV.attrs : BV → Attrs
  | .leafV a => a
  | .nodeV a _ => a

/-- Whether a node is a leaf (`children is None`). -/
def BV.isLeaf : BV → Bool
  | .leafV _ => true
  | .nodeV _ _ => false

mutual

/-- All nodes of a tree, root first, children in order. -/
def nodesOf : BV → List BV
  | .leafV a => [.leafV a]
  | .nodeV a cs => .nodeV a cs :: nodesOfList cs

/-- All nodes of a forest. -/
def nodesOfList : List BV → List BV
  | [] => []
  | c :: cs => nodesOf c ++ nodesOfList cs

end

/-- `BoundVariable.io_type`: both `in`+`out` or bare `inout` give `inout`;
bare `out` gives `out`; otherwise `in`. -/
def ioType (m : Modifiers) : IOType :=
  if (m.hasIn && m.hasOut) || m.hasInout then .inout
  else if m.hasOut then .out
  else .inn

/-- `BoundVariable.no_diff`: presence of the `no_diff` modifier. -/
def noDiff (m : Modifiers) : Bool :=
  m.hasNodiff

/-- `BoundVariable.bind`, `SlangType` branch: sets `name` (from the override
when empty), `slang_type` and `slang_modifiers`, then `variable_name`. -/
def bindAttrs (a : Attrs) (slang : SlangType) (modifiers : Modifiers)
    (overrideName : Option String) : Except PyErr Attrs := do
  let nm ←
    if a.name = "" then
      match overrideName with
      | Option.none => Except.error .assertionError
      | Option.some n => pure n
    else
      pure a.name
  pure { a with name := nm, slangType := Option.some slang,
                slangModifiers := modifiers, variableName := nm }

mutual

/-- `BoundVariable.bind` (the `SlangType` branch of the `Union` parameter,
which is the one taken for children): bind this node, then each child
against the field of the bound type matching the child's name — a missing
field is the raw mapping-lookup `KeyError` of
`self.slang_type.fields[child.name]`. -/
def bindVar (slang : SlangType) (modifiers : Modifiers)
    (overrideName : Option String) : BV → Except PyErr BV
  | .leafV a => do
      let a' ← bindAttrs a slang modifiers overrideName
      pure (.leafV a')
  | .nodeV a cs => do
      let a' ← bindAttrs a slang modifiers overrideName
      let cs' ← bindChildren slang a'.slangModifiers cs
      pure (.nodeV a' cs')

/-- Children loop of `BoundVariable.bind`. -/
def bindChildren (slang : SlangType) (modifiers : Modifiers) :
    List BV → Except PyErr (List BV)
  | [] => pure []
  | c :: cs => do
      let fieldTy ←
        match slang.findField c.attrs.name with
        | Option.none => Except.error (.keyError c.attrs.name)
        | Option.some t => pure t
      let c' ← bindVar fieldTy modifiers Option.none c
      let cs' ← bindChildren slang modifiers cs
      pure (c' :: cs')

end

/-- An explicit vectorization override, as classified by
`BoundVariable._apply_explicit_vectorization`: an axis tuple, a `SlangType`,
a type-name string, a host type (identified here by the opaque key the
context's registry resolves), a nested dict for structured arguments, or
anything else (invalid). -/
inductive EVMap where
  | tup (axes : List Int)
  | sty (t : SlangType)
  | tyName (s : String)
  | hostTy (id : Nat)
  | dictM (entries : List (String × EVMap))
  | other

/-- `BoundVariable._apply_explicit_vectorization`: dispatch on the override
kind; every raised exception (including the invalid-type cases) is wrapped
into a `BoundVariableException` by the enclosing `try`/`except`. -/
def applyExplicitLeafAttrs (ctx : BindContext) (m : EVMap) (a : Attrs) :
    Except PyErr Attrs :=
  match m with
  | .tup axes =>
      pure { a with vectorMapping := Shape.mk (Option.some axes),
                    vectorType := Option.some (a.python.reduceType axes.length),
                    explicitlyVectorized := true }
  | .sty t =>
      pure { a with vectorType := Option.some t, explicitlyVectorized := true }
  | .tyName s =>
      pure { a with vectorType := ctx.findTypeByName s,
                    explicitlyVectorized := true }
  | .hostTy id =>
      match ctx.lookupMarshall id with
      | Option.none =>
          Except.error (.boundVar "Explicit vectorization raised exception: invalid explicit type" a.path)
      | Option.some mar =>
          pure { a with vectorType := Option.some mar.slangType,
                        explicitlyVectorized := true }
  | .dictM _ =>
      Except.error (.boundVar "Explicit vectorization raised exception: invalid explicit type" a.path)
  | .other =>
      Except.error (.boundVar "Explicit vectorization raised exception: invalid explicit type" a.path)

mutual

/-- `BoundVariable.apply_explicit_vectorization`: a node with children
expects a dict override (`assert isinstance(mapping, dict)`), applies the
matching entries to children, then the `$type` entry (if any) to itself;
a leaf applies the override directly. -/
def applyExplicitVar (ctx : BindContext) (m : EVMap) : BV → Except PyErr BV
  | .leafV a => do
      let a' ← applyExplicitLeafAttrs ctx m a
      pure (.leafV a')
  | .nodeV a cs =>
      match m with
      | .dictM entries => do
          let cs' ← applyExplicitChildren ctx entries cs
          match entries.find? (fun p => p.1 == "$type") with
          | Option.none => pure (.nodeV a cs')
          | Option.some p => do
              let a' ← applyExplicitLeafAttrs ctx p.2 a
              pure (.nodeV a' cs')
      | _ => Except.error .assertionError

/-- Children loop of `apply_explicit_vectorization`: each child whose name
appears in the override dict is updated. -/
def applyExplicitChildren (ctx : BindContext)
    (entries : List (String × EVMap)) : List BV → Except PyErr (List BV)
  | [] => pure []
  | c :: cs => do
      let c' ←
        match entries.find? (fun p => p.1 == c.attrs.name) with
        | Option.none => pure c
        | Option.some p => applyExplicitVar ctx p.2 c
      let cs' ← applyExplicitChildren ctx entries cs
      pure (c' :: cs')

end

/-- The root aggregate `BoundCall`: positional and keyword bound variables. -/
structure BoundCallS where
  args : List BV
  kwargs : List (String × BV)

/-- Positional loop of `BoundCall.apply_explicit_vectorization`: overrides
are applied to the leading arguments in order, stopping at the first raised
exception but keeping mutations already made (the Python objects are updated
in place). -/
def applyExplicitArgs (ctx : BindContext) :
    List EVMap → List BV → List BV × Option PyErr
  | [], rest => (rest, Option.none)
  | _ :: _, [] => ([], Option.none)
  | m :: ms, v :: vs =>
      match applyExplicitVar ctx m v with
      | .error e => (v :: vs, Option.some e)
      | .ok v' =>
          match applyExplicitArgs ctx ms vs with
          | (vs', e) => (v' :: vs', e)

/-- One keyword-override step: unknown names raise
`ValueError("Unknown keyword argument ...")`; known names update the
matching keyword variable in place. -/
def applyExplicitKwStep (ctx : BindContext) (nm : String) (m : EVMap)
    (kws : List (String × BV)) : List (String × BV) × Option PyErr :=
  if (kws.find? (fun p => p.1 == nm)).isNone then
    (kws, Option.some (.valueError ("Unknown keyword argument " ++ nm)))
  else
    match kws with
    | [] => ([], Option.none)
    | (k, v) :: rest =>
        if k = nm then
          match applyExplicitVar ctx m v with
          | .error e => ((k, v) :: rest, Option.some e)
          | .ok v' => ((k, v') :: rest, Option.none)
        else
          match applyExplicitKwStep ctx nm m rest with
          | (rest', e) => ((k, v) :: rest', e)

/-- Keyword loop of `BoundCall.apply_explicit_vectorization`. -/
def applyExplicitKwargs (ctx : BindContext) :
    List (String × EVMap) → List (String × BV) → List (String × BV) × Option PyErr
  | [], kws => (kws, Option.none)
  | (nm, m) :: rest, kws =>
      match applyExplicitKwStep ctx nm m kws with
      | (kws', Option.some e) => (kws', Option.some e)
      | (kws', Option.none) => applyExplicitKwargs ctx rest kws'

/-- `BoundCall.apply_explicit_vectorization`: the two arity checks run
first (no mutation), then the positional overrides are applied, then the
keyword overrides; an exception stops the loops but mutations already made
to the bound variables persist (in-place update). -/
def applyExplicitCall (ctx : BindContext) (ovArgs : List EVMap)
    (ovKwargs : List (String × EVMap)) (bc : BoundCallS) :
    BoundCallS × Option PyErr :=
  if ovArgs.length > bc.args.length then
    (bc, Option.some (.valueError "Too many arguments supplied for explicit vectorization"))
  else if ovKwargs.length > bc.kwargs.length then
    (bc, Option.some (.valueError "Too many keyword arguments supplied for explicit vectorization"))
  else
    match applyExplicitArgs ctx ovArgs bc.args with
    | (args', Option.some e) => ({ bc with args := args' }, Option.some e)
    | (args', Option.none) =>
        match applyExplicitKwargs ctx ovKwargs bc.kwargs with
        | (kwargs', e) => ({ bc with args := args', kwargs := kwargs' }, e)

/-- Maximum of a nonempty integer list (Python `max` on a tuple). -/
def listMax : Int → List Int → Int
  | x, [] => x
  | x, y :: ys => listMax (max x y) ys

/-- `BoundVariable._apply_implicit_vectorization`: reduce an already-pinned
mapping's type; otherwise resolve a type from the marshall / slang-type
pairing (deferring the `_result` slot); fall back to the slang type for the
auto-allocated result; then compute `call_dimensionality` — `max(mapping)+1`
(0 when empty) for a pinned mapping, else the marshall query. -/
def applyImplicitAttrs (_ctx : BindContext) (a : Attrs) : Except PyErr Attrs := do
  let a ←
    if a.vectorMapping.valid then
      pure { a with vectorType := Option.some (a.python.reduceType a.vectorMapping.lengthS) }
    else
      pure a
  let a ←
    if a.vectorType.isSome then
      pure a
    else if a.path = "_result" then
      pure a
    else
      match a.slangType with
      | Option.none => Except.error .assertionError
      | Option.some st =>
          pure { a with vectorType := Option.some (a.python.resolveType st) }
  let a ←
    if !a.vectorMapping.valid && a.vectorType.isNone then
      if a.path = "_result" then
        pure { a with vectorType := a.slangType }
      else
        Except.error .assertionError
    else
      pure a
  if a.vectorMapping.valid then
    match a.vectorMapping.asTuple with
    | [] => pure { a with callDim := Option.some 0 }
    | x :: xs => pure { a with callDim := Option.some (listMax x xs + 1) }
  else
    match a.vectorType with
    | Option.none => Except.error .assertionError
    | Option.some vt =>
        pure { a with callDim := Option.some (a.python.resolveDimensionality vt) }

mutual

/-- `BoundVariable.apply_implicit_vectorization`: children first, then the
node itself. -/
def applyImplicitVar (ctx : BindContext) : BV → Except PyErr BV
  | .leafV a => do
      let a' ← applyImplicitAttrs ctx a
      pure (.leafV a')
  | .nodeV a cs => do
      let cs' ← applyImplicitList ctx cs
      let a' ← applyImplicitAttrs ctx a
      pure (.nodeV a' cs')

/-- Children loop of `apply_implicit_vectorization`. -/
def applyImplicitList (ctx : BindContext) : List BV → Except PyErr (List BV)
  | [] => pure []
  | c :: cs => do
      let c' ← applyImplicitVar ctx c
      let cs' ← applyImplicitList ctx cs
      pure (c' :: cs')

end

/-- The strict-broadcasting error message of `_finalize_mappings`. -/
def strictMsg (path : String) (dim : Option Int) (kernelDim : Nat) : String :=
  "Strict broadcasting is enabled and " ++ path ++ " dimensionality (" ++
    (match dim with
     | Option.none => "None"
     | Option.some d => toString d) ++
    ") is neither 0 or the kernel dimensionality (" ++ toString kernelDim ++ ")"

/-- The default mapping loop of `_finalize_mappings`: append
`kernelDim - i - 1` for `i` in `range(dim)`, then reverse.  Python's
`range` of a negative integer is empty, matching `Int.toNat`. -/
def defaultMapping (kernelDim : Nat) (dim : Int) : List Int :=
  ((List.range dim.toNat).map (fun i : Nat => (kernelDim : Int) - (i : Int) - 1)).reverse

/-- `BoundVariable._finalize_mappings` on one node (`isLeaf` is the
`children is None` test): the strict-broadcasting check for non-explicit
leaves, then the trailing-alignment default mapping for any still-invalid
mapping. -/
def finalizeAttrs (ctx : BindContext) (isLeaf : Bool) (a : Attrs) :
    Except PyErr Attrs := do
  if ctx.strictBroadcasting && isLeaf && !a.explicitlyVectorized then
    if a.callDim ≠ Option.some 0 && a.callDim ≠ Option.some (ctx.callDimensionality : Int) then
      Except.error (.boundVar (strictMsg a.path a.callDim ctx.callDimensionality) a.path)
    else
      pure ()
  else
    pure ()
  if !a.vectorMapping.valid then
    match a.callDim with
    | Option.none => Except.error .assertionError
    | Option.some d =>
        pure { a with vectorMapping := Shape.mk (Option.some (defaultMapping ctx.callDimensionality d)) }
  else
    pure a

mutual

/-- `BoundVariable.finalize_mappings`: children first, then the node. -/
def finalizeVar (ctx : BindContext) : BV → Except PyErr BV
  | .leafV a => do
      let a' ← finalizeAttrs ctx true a
      pure (.leafV a')
  | .nodeV a cs => do
      let cs' ← finalizeList ctx cs
      let a' ← finalizeAttrs ctx false a
      pure (.nodeV a' cs')

/-- Children loop of `finalize_mappings`. -/
def finalizeList (ctx : BindContext) : List BV → Except PyErr (List BV)
  | [] => pure []
  | c :: cs => do
      let c' ← finalizeVar ctx c
      let cs' ← finalizeList ctx cs
      pure (c' :: cs')

end

/-- `BoundVariable._calculate_differentiability`: the access-pair table
keyed on call mode, the computed differentiability flag and the io type;
any mode other than `prim` and `bwds` falls through to `(none, none)`. -/
def accessPair (mode : CallMode) (differentiable : Bool) (io : IOType) :
    AccessType × AccessType :=
  match mode with
  | .prim =>
      if differentiable then
        match io with
        | .inout => (.readwrite, .none)
        | .out => (.write, .none)
        | .inn => (.read, .none)
      else
        match io with
        | .inout => (.readwrite, .none)
        | .out => (.write, .none)
        | .inn => (.read, .none)
  | .bwds =>
      if differentiable then
        match io with
        | .inout => (.read, .readwrite)
        | .out => (.none, .read)
        | .inn => (.read, .write)
      else
        match io with
        | .inout => (.read, .none)
        | .out => (.none, .none)
        | .inn => (.read, .none)
  | _ => (.none, .none)

/-- The per-node body of `BoundVariable.calculate_differentiability`:
`differentiable = not no_diff and vector_type.differentiable and
python.has_derivative` (with `assert vector_type is not None`), then the
access pair from the table. -/
def calcDiffAttrs (mode : CallMode) (a : Attrs) : Except PyErr Attrs := do
  match a.vectorType with
  | Option.none => Except.error .assertionError
  | Option.some vt =>
      let d := !noDiff a.slangModifiers && vt.differentiable && a.python.hasDerivative
      pure { a with differentiable := d,
                    access := accessPair mode d (ioType a.slangModifiers) }

mutual

/-- `BoundVariable.calculate_differentiability`: the node itself first,
then the children. -/
def calcDiffVar (mode : CallMode) : BV → Except PyErr BV
  | .leafV a => do
      let a' ← calcDiffAttrs mode a
      pure (.leafV a')
  | .nodeV a cs => do
      let a' ← calcDiffAttrs mode a
      let cs' ← calcDiffList mode cs
      pure (.nodeV a' cs')

/-- Children loop of `calculate_differentiability`. -/
def calcDiffList (mode : CallMode) : List BV → Except PyErr (List BV)
  | [] => pure []
  | c :: cs => do
      let c' ← calcDiffVar mode c
      let cs' ← calcDiffList mode cs
      pure (c' :: cs')

end

/-- One call against the code-emission sink (`CodeGenBlock` of
`core/codegen.py`, consumed per the spec's §6 interface).  The text a leaf's
marshall hook emits is kept as a distinct constructor: it is external output,
not produced by this module. -/
inductive Event where
  | beginStruct (n : String)
  | endStruct
  | declareEv (ty n : String)
  | beginBlock
  | endBlock
  | emptyLine
  | appendLine (s : String)
  | appendStatement (s : String)
  | assignEv (l r : String)
  | marshallEmit (s : String)
deriving DecidableEq, Repr

/-- One entry of the `names` list built for a composite node in
`gen_call_data_code`: `(field, variable_name, full_name, full_name +
".Differential")`. -/
structure ChildRef where
  field : String
  childName : String
  tyName : String
  diffTyName : String
deriving DecidableEq, Repr

/-- The axis-mapping constant statement: `static const int[] _m_<vn> =
{ a,b,... }` for a nonempty axis list, a single zero constant otherwise. -/
def mapConstStmt (vn : String) (axes : List Int) : Event :=
  if axes.length > 0 then
    .appendStatement ("static const int[] _m_" ++ vn ++ " = \x7b " ++
      String.intercalate "," (axes.map toString) ++ " \x7d")
  else
    .appendStatement ("static const int _m_" ++ vn ++ " = 0")

/-- Signature line of a `load_<slot>` accessor. -/
def loadSigLine (prim : PrimType) (ptn : String) : String :=
  "void load_" ++ prim.nm ++ "(IContext context, out " ++ ptn ++ " value)"

/-- Signature line of a `store_<slot>` accessor. -/
def storeSigLine (prim : PrimType) (ptn : String) : String :=
  "void store_" ++ prim.nm ++ "(IContext context, in " ++ ptn ++ " value)"

/-- The per-slot type name: the vector type's full name, with
`.Differential` appended for the derivative slot. -/
def ptnOf (vt : SlangType) (prim : PrimType) : String :=
  if prim = PrimType.primal then vt.fullName else vt.fullName ++ ".Differential"

/-- The `load_<slot>` / `store_<slot>` accessor pair a composite node emits
for one non-`none` access slot: signature lines, then per-child delegating
statements. -/
def accessorEvents (prim : PrimType) (ptn : String) (names : List ChildRef) :
    List Event :=
  [.emptyLine, .emptyLine,
   .appendLine (loadSigLine prim ptn),
   .beginBlock] ++
  (names.flatMap fun nm =>
    [.declareEv nm.tyName nm.field,
     .appendStatement ("this." ++ nm.childName ++ ".load_" ++ prim.nm ++
       "(ctx(context, _m_" ++ nm.childName ++ ")," ++ nm.field ++ ")"),
     .assignEv ("value." ++ nm.field) nm.field]) ++
  [.endBlock, .emptyLine,
   .appendLine (storeSigLine prim ptn),
   .beginBlock] ++
  (names.map fun nm =>
    Event.appendStatement ("this." ++ nm.childName ++ ".store_" ++ prim.nm ++
      "(ctx(context, _m_" ++ nm.childName ++ "),value." ++ nm.field ++ ")")) ++
  [.endBlock]

/-- The access slot of one `PrimType` (`self.access[prim.value]`). -/
def accessOf (a : Attrs) : PrimType → AccessType
  | .primal => a.access.1
  | .derivative => a.access.2

/-- Events of `gen_call_data_code`'s `for prim in PrimType` body for one
slot: skipped when the slot's access is `none`, otherwise requires a set
vector type (`assert`) and emits the accessor pair. -/
def genPrimEvents (a : Attrs) (names : List ChildRef) (prim : PrimType) :
    Except PyErr (List Event) :=
  if accessOf a prim = AccessType.none then
    pure []
  else
    match a.vectorType with
    | Option.none => Except.error .assertionError
    | Option.some vt => pure (accessorEvents prim (ptnOf vt prim) names)

mutual

/-- `BoundVariable.gen_call_data_code`, with the two emission buffers
(`cg.call_data_structs`, `cg.call_data`) made explicit as the event lists
this node appends to them; returns them with `self.variable_name`. -/
def genVar (ctx : BindContext) (depth : Nat) :
    BV → Except PyErr (List Event × List Event × String)
  | .leafV a => do
      if (a.access.1 = AccessType.write ∨ a.access.1 = AccessType.readwrite) ∧
          a.python.isWritable = false then
        if depth = 0 then
          Except.error (.boundVar "Cannot read back value for non-writable type" a.path)
        else
          pure ()
      else
        pure ()
      let evs := (a.python.genCalldata.map Event.marshallEmit) ++
        [mapConstStmt a.variableName a.vectorMapping.asTuple]
      let cd := if depth = 0 then
          [Event.declareEv ("_t_" ++ a.variableName) a.variableName]
        else []
      pure (evs, cd, a.variableName)
  | .nodeV a cs => do
      let (childEvs, childCd, names) ← genChildren ctx (depth + 1) cs
      let declares := names.map (fun nm =>
        Event.declareEv ("_t_" ++ nm.childName) nm.childName)
      let primalEvs ← genPrimEvents a names PrimType.primal
      let derivEvs ← genPrimEvents a names PrimType.derivative
      let fullMap := (List.range ctx.callDimensionality).map (Int.ofNat)
      let evs := Event.beginStruct ("_t_" ++ a.variableName) ::
        (childEvs ++ declares ++ primalEvs ++ derivEvs ++ [Event.endStruct] ++
         [mapConstStmt a.variableName fullMap])
      let cd := childCd ++ (if depth = 0 then
          [Event.declareEv ("_t_" ++ a.variableName) a.variableName]
        else [])
      pure (evs, cd, a.variableName)

/-- Children loop of `gen_call_data_code`: generate each child, then record
its `(field, name, type, type.Differential)` entry — the child's vector type
must be set (`assert`). -/
def genChildren (ctx : BindContext) (depth : Nat) :
    List BV → Except PyErr (List Event × List Event × List ChildRef)
  | [] => pure ([], [], [])
  | c :: cs => do
      let (evs, cd, nm) ← genVar ctx depth c
      let ref ←
        match c.attrs.vectorType with
        | Option.none => Except.error .assertionError
        | Option.some vt =>
            pure (ChildRef.mk c.attrs.name nm vt.fullName (vt.fullName ++ ".Differential"))
      let (evsRest, cdRest, refs) ← genChildren ctx depth cs
      pure (evs ++ evsRest, cd ++ cdRest, ref :: refs)

end

/-! ### Spec-side definitions (for refinement comparisons)

These follow the spec's wording, to be compared with the definitions
translated from the source above. -/

/-- Modelled from the spec: the trailing `rank` indices of `[0, globalRank)`
in ascending order (NumPy-style trailing alignment; §4.3 phase 2, §8). -/
def specTrailingAxes (globalRank rank : Nat) : List Int :=
  (List.range rank).map (fun i => ((globalRank - rank + i : Nat) : Int))

/-- Modelled from the spec: the §4.4 access-pair table, rows written exactly
as in the spec (`forward` selects the Forward rows, otherwise Backward). -/
def specAccessTable (forward : Bool) (differentiable : Bool) (io : IOType) :
    AccessType × AccessType :=
  if forward then
    if differentiable then
      match io with
      | .inn => (.read, .none)
      | .out => (.write, .none)
      | .inout => (.readwrite, .none)
    else
      match io with
      | .inn => (.read, .none)
      | .out => (.write, .none)
      | .inout => (.readwrite, .none)
  else
    if differentiable then
      match io with
      | .inn => (.read, .write)
      | .out => (.none, .read)
      | .inout => (.read, .readwrite)
    else
      match io with
      | .inn => (.read, .none)
      | .out => (.none, .none)
      | .inout => (.read, .none)

/-- Modelled from the spec (§4.5/§6): the per-variable mapping constant the
generator must emit — an integer-array constant named `_m_<variableName>`
listing the dispatch axes the node maps to, a single zero constant when the
axis list is empty. -/
def specMapConst (vn : String) (axes : List Int) : Event :=
  if axes.length > 0 then
    .appendStatement ("static const int[] _m_" ++ vn ++ " = \x7b " ++
      String.intercalate "," (axes.map toString) ++ " \x7d")
  else
    .appendStatement ("static const int _m_" ++ vn ++ " = 0")

/-- The dispatch axes a node maps to: a leaf's own axis mapping; a composite
covers the full dispatch range (`full_map` in the source). -/
def nodeAxes (ctx : BindContext) (u : BV) : List Int :=
  if u.isLeaf then u.attrs.vectorMapping.asTuple
  else (List.range ctx.callDimensionality).map Int.ofNat

/-- `max(mapping) + 1`, or 0 for an empty mapping: the pinned-mapping
dimensionality rule. -/
def dimOfMapping : List Int → Int
  | [] => 0
  | x :: xs => listMax x xs + 1

/-- The condition under which the strict-broadcasting check fires for a
node: a leaf, not explicitly vectorized, whose dimensionality is neither 0
nor the global dispatch rank. -/
def strictBad (ctx : BindContext) (u : BV) : Prop :=
  u.isLeaf = true ∧ u.attrs.explicitlyVectorized = false ∧
  u.attrs.callDim ≠ Option.some 0 ∧
  u.attrs.callDim ≠ Option.some (ctx.callDimensionality : Int)

instance (ctx : BindContext) (u : BV) : Decidable (strictBad ctx u) := by
  unfold strictBad
  infer_instance

/-- Every node's `call_dimensionality` is set — the state the implicit pass
establishes before finalize runs. -/
def dimsSet (v : BV) : Prop :=
  ∀ u ∈ nodesOf v, (u.attrs.callDim).isSome = true

/-- Decidability of `dimsSet` (used to evaluate witnesses). -/
instance (v : BV) : Decidable (dimsSet v) := by
  unfold dimsSet
  infer_instance

/-- The node's `vector_type.differentiable` flag (false when unset; the
differentiability pass asserts it is set). -/
def vtDiff (a : Attrs) : Bool :=
  match a.vectorType with
  | Option.some vt => vt.differentiable
  | Option.none => false

/-- Whether a bind result failed with a structured `BoundVariableException`. -/
def isBoundVarErr : Except PyErr BV → Bool
  | .error (.boundVar _ _) => true
  | _ => false

/-- The naming obligations of one node within an emitted event list: the
node's `_m_<variableName>` axis-mapping constant is present (a single zero
constant for an empty axis list), and for a composite node the synthesized
`_t_<variableName>` struct declaration and, for every non-`none` access
slot, the `load_<slot>` / `store_<slot>` accessor signature lines. -/
def genNodeProp (ctx : BindContext) (u : BV) (evs : List Event) : Prop :=
  specMapConst u.attrs.variableName (nodeAxes ctx u) ∈ evs ∧
  (u.isLeaf = false →
    Event.beginStruct ("_t_" ++ u.attrs.variableName) ∈ evs ∧
    ∀ prim : PrimType, accessOf u.attrs prim ≠ AccessType.none →
      ∃ vt, u.attrs.vectorType = Option.some vt ∧
        Event.appendLine (loadSigLine prim (ptnOf vt prim)) ∈ evs ∧
        Event.appendLine (storeSigLine prim (ptnOf vt prim)) ∈ evs)

/-- Every synthesized struct declaration this module emits is `_t_`-named
after some composite node of the given node list. -/
def genStructNames (l : List BV) (evs : List Event) : Prop :=
  ∀ s, Event.beginStruct s ∈ evs →
    ∃ u ∈ l, u.isLeaf = false ∧ s = "_t_" ++ u.attrs.variableName

/-! ### Concrete fixtures for witnesses and counterexamples -/

/-- A scalar-like differentiable slang type. -/
def tyFloat : SlangType := .mk "float" true []

/-- A struct slang type with one `float` field `x`. -/
def tyStructS : SlangType := .mk "S" true [("x", tyFloat)]

/-- A parent slang type whose only field is `x` (used for the bind
counterexample: no field `y`). -/
def tyP : SlangType := .mk "P" false [("x", tyFloat)]

/-- A concrete marshall capability. -/
def mkMarshall (wr hd : Bool) (dim : Int) : Marshall :=
  { hasDerivative := hd, isWritable := wr, slangType := tyFloat,
    reduceType := fun _ => tyFloat, resolveType := fun st => st,
    resolveDimensionality := fun _ => dim, genCalldata := ["leaf_calldata"] }

/-- The empty modifier set. -/
def mods0 : Modifiers := ⟨false, false, false, false⟩

/-- Freshly constructed attributes, as `BoundVariable.__init__` leaves them
(plus the post-`bind` `variable_name`). -/
def mkAttrs (nm : String) (mar : Marshall) : Attrs :=
  { name := nm, path := nm, python := mar,
    access := (AccessType.none, AccessType.none),
    differentiable := false, callDim := Option.none,
    vectorMapping := Shape.mk Option.none, vectorType := Option.none,
    explicitlyVectorized := false, slangType := Option.none,
    slangModifiers := mods0, variableName := nm }

/-- A concrete bind context. -/
def mkCtx (r : Nat) (mode : CallMode) (strict : Bool) : BindContext :=
  { callDimensionality := r, callMode := mode, strictBroadcasting := strict,
    findTypeByName := fun _ => Option.none,
    lookupMarshall := fun _ => Option.none }

/-- C1 witness context: global dispatch rank 5. -/
def ctxW1 : BindContext := mkCtx 5 .prim false

/-- C1 witness variable: rank-2 leaf, unresolved mapping, not explicit. -/
def aW1 : Attrs := { mkAttrs "v" (mkMarshall true true 2) with callDim := Option.some 2 }

/-- C2/C10 witness variable: a differentiable leaf with a set vector type. -/
def aW2 : Attrs := { mkAttrs "p" (mkMarshall true true 0) with vectorType := Option.some tyFloat }

/-- C2/C10 witness tree. -/
def treeW2 : BV := .leafV aW2

/-- C2 witness: the backward-mode differentiability pass output. -/
def w2out : BV := ((calcDiffVar .bwds treeW2).toOption).getD treeW2

/-- C10 witness: the fall-through (fwds) differentiability pass output. -/
def w10out : BV := ((calcDiffVar .fwds treeW2).toOption).getD treeW2

/-- C3 witness context: rank 3, strict broadcasting on. -/
def ctxW3 : BindContext := mkCtx 3 .prim true

/-- C3 witness context with strict broadcasting off. -/
def ctxW3off : BindContext := mkCtx 3 .prim false

/-- C3 witness tree: a composite with one rank-1 non-explicit leaf. -/
def treeW3 : BV :=
  .nodeV { mkAttrs "p" (mkMarshall true true 1) with callDim := Option.some 1 }
    [.leafV { mkAttrs "c" (mkMarshall true true 1) with callDim := Option.some 1 }]

/-- C4 context. -/
def ctxW4 : BindContext := mkCtx 1 .prim false

/-- C4 bound call: one positional argument, one keyword argument `a`. -/
def bcW4 : BoundCallS :=
  { args := [.leafV (mkAttrs "" (mkMarshall true true 0))],
    kwargs := [("a", .leafV (mkAttrs "a" (mkMarshall true true 0)))] }

/-- C4 counterexample overrides: a valid positional axis tuple plus an
unknown keyword override name. -/
def ovKwBad : List (String × EVMap) := [("bad", .tup [0])]

/-- C5 context. -/
def ctxW5 : BindContext := mkCtx 1 .prim false

/-- C5 witness variable: write access on a non-writable marshall. -/
def aW5 : Attrs :=
  { mkAttrs "b" (mkMarshall false true 1) with
      access := (AccessType.write, AccessType.none),
      vectorMapping := Shape.mk (Option.some [0]),
      vectorType := Option.some tyFloat }

/-- C6 context. -/
def ctxW6 : BindContext := mkCtx 3 .prim false

/-- C6 context with strict broadcasting on. -/
def ctxW6strict : BindContext := mkCtx 3 .prim true

/-- C6 variable before explicit vectorization. -/
def aW6 : Attrs := mkAttrs "v6" (mkMarshall true true 0)

/-- C7 counterexample tree: a structured argument with one child `y`. -/
def treeW7 : BV :=
  .nodeV (mkAttrs "arg" (mkMarshall true true 0))
    [.leafV (mkAttrs "y" (mkMarshall true true 0))]

/-- C8 context: rank 2. -/
def ctxW8 : BindContext := mkCtx 2 .prim false

/-- C8 witness child leaf. -/
def aW8c : Attrs :=
  { mkAttrs "x" (mkMarshall true true 1) with
      vectorType := Option.some tyFloat,
      vectorMapping := Shape.mk (Option.some [1]),
      access := (AccessType.read, AccessType.none) }

/-- C8 witness composite root. -/
def treeW8 : BV :=
  .nodeV { mkAttrs "s" (mkMarshall true true 1) with
             vectorType := Option.some tyStructS,
             access := (AccessType.read, AccessType.none) }
    [.leafV aW8c]

/-- C8 witness: the generator's output on `treeW8`. -/
def genW8 : List Event × List Event × String :=
  ((genVar ctxW8 0 treeW8).toOption).getD ([], [], "")

/-- C9 context: rank 2, strict broadcasting off. -/
def ctxW9 : BindContext := mkCtx 2 .prim false

/-- C9 tree: a composite with one leaf child, both bound to slang types,
nothing explicitly vectorized. -/
def treeW9 : BV :=
  .nodeV { mkAttrs "s9" (mkMarshall true true 1) with slangType := Option.some tyStructS }
    [.leafV { mkAttrs "x" (mkMarshall true true 1) with slangType := Option.some tyFloat }]

/-- C9: the tree after the implicit pass. -/
def w9mid : BV :=
  ((applyImplicitVar ctxW9 treeW9).toOption).getD treeW9

/-- C9: the tree after the implicit pass and finalize. -/
def w9out : BV :=
  ((finalizeVar ctxW9 w9mid).toOption).getD treeW9

/-! ### Helper lemmas -/

/-- The source's reversed descending loop produces exactly the spec's
trailing ascending axes when the variable's rank fits the dispatch rank. -/
theorem defaultMapping_eq_spec (r k : Nat) (h : k ≤ r) :
    defaultMapping r (k : Int) = specTrailingAxes r k := by
  unfold defaultMapping specTrailingAxes
  rw [Int.toNat_natCast]
  apply List.ext_getElem
  · simp
  · intro i h1 h2
    simp only [List.length_map, List.length_range] at h2
    simp only [List.getElem_reverse, List.getElem_map, List.getElem_range,
      List.length_map, List.length_range]
    have : (↑(r - k + i) : Int) = ↑r - ↑k + ↑i := by omega
    rw [this]
    omega

/-- Inversion of a successful `Except` bind. -/
theorem exceptBind_ok {α β : Type} {x : Except PyErr α} {f : α → Except PyErr β}
    {b : β} (h : (x >>= f) = Except.ok b) :
    ∃ a, x = Except.ok a ∧ f a = Except.ok b := by
  cases x with
  | error e => exact Except.noConfusion h
  | ok a => exact ⟨a, rfl, h⟩

/-- Inversion of a successful `calcDiffAttrs`. -/
theorem calcDiffAttrs_ok {mode : CallMode} {a a' : Attrs}
    (h : calcDiffAttrs mode a = Except.ok a') :
    ∃ vt, a.vectorType = Option.some vt ∧
      a' = { a with
        differentiable := !noDiff a.slangModifiers && vt.differentiable &&
          a.python.hasDerivative,
        access := accessPair mode
          (!noDiff a.slangModifiers && vt.differentiable && a.python.hasDerivative)
          (ioType a.slangModifiers) } := by
  unfold calcDiffAttrs at h
  cases hvt : a.vectorType with
  | none => rw [hvt] at h; exact Except.noConfusion h
  | some vt =>
      rw [hvt] at h
      exact ⟨vt, rfl, (Except.ok.inj h).symm⟩

mutual

/-- Every node of a successful differentiability pass's output carries the
computed `differentiable` flag and the table's access pair. -/
theorem calcDiffVar_nodes (mode : CallMode) :
    ∀ v w, calcDiffVar mode v = Except.ok w →
    ∀ u ∈ nodesOf w,
      u.attrs.differentiable =
        (!noDiff u.attrs.slangModifiers && vtDiff u.attrs &&
          u.attrs.python.hasDerivative) ∧
      u.attrs.access =
        accessPair mode u.attrs.differentiable (ioType u.attrs.slangModifiers)
  | .leafV a, w, h, u, hu => by
      obtain ⟨a', ha, hw⟩ := exceptBind_ok h
      obtain ⟨vt, hvt, ha'⟩ := calcDiffAttrs_ok ha
      have hw' : w = .leafV a' := (Except.ok.inj hw).symm
      subst hw'
      simp only [nodesOf, List.mem_singleton] at hu
      subst hu
      subst ha'
      refine ⟨?_, rfl⟩
      simp [BV.attrs, vtDiff, hvt]
  | .nodeV a cs, w, h, u, hu => by
      obtain ⟨a', ha, h2⟩ := exceptBind_ok h
      obtain ⟨ws, hws, h3⟩ := exceptBind_ok h2
      obtain ⟨vt, hvt, ha'⟩ := calcDiffAttrs_ok ha
      have hw' : w = .nodeV a' ws := (Except.ok.inj h3).symm
      subst hw'
      simp only [nodesOf, List.mem_cons] at hu
      rcases hu with hu | hu
      · subst hu
        subst ha'
        refine ⟨?_, rfl⟩
        simp [BV.attrs, vtDiff, hvt]
      · exact calcDiffList_nodes mode cs ws hws u hu

/-- Forest version of `calcDiffVar_nodes`. -/
theorem calcDiffList_nodes (mode : CallMode) :
    ∀ cs ws, calcDiffList mode cs = Except.ok ws →
    ∀ u ∈ nodesOfList ws,
      u.attrs.differentiable =
        (!noDiff u.attrs.slangModifiers && vtDiff u.attrs &&
          u.attrs.python.hasDerivative) ∧
      u.attrs.access =
        accessPair mode u.attrs.differentiable (ioType u.attrs.slangModifiers)
  | [], ws, h, u, hu => by
      have : ws = [] := (Except.ok.inj h).symm
      subst this
      simp [nodesOfList] at hu
  | c :: cs, ws, h, u, hu => by
      obtain ⟨c', hc, h2⟩ := exceptBind_ok h
      obtain ⟨cs', hcs, h3⟩ := exceptBind_ok h2
      have hw' : ws = c' :: cs' := (Except.ok.inj h3).symm
      subst hw'
      simp only [nodesOfList, List.mem_append] at hu
      rcases hu with hu | hu
      · exact calcDiffVar_nodes mode c c' hc u hu
      · exact calcDiffList_nodes mode cs cs' hcs u hu

end

/-- The source's access table agrees with the spec's §4.4 table in the two
modes the spec names. -/
theorem accessPair_eq_spec (mode : CallMode)
    (hmode : mode = CallMode.prim ∨ mode = CallMode.bwds) (d : Bool) (io : IOType) :
    accessPair mode d io = specAccessTable (decide (mode = CallMode.prim)) d io := by
  rcases hmode with h | h <;> subst h <;> cases d <;> cases io <;> rfl

/-! ### Claim theorems -/

/-- C1: a leaf whose axis mapping is still unresolved after the implicit
pass and that was not explicitly vectorized gets, from finalize, the mapping
whose values are exactly the trailing `rank(variable)` indices of
`[0, globalRank)` in ascending order (empty for rank 0). -/
theorem claim1_finalize_default_mapping (ctx : BindContext) (a : Attrs) (k : Nat)
    (hm : a.vectorMapping = Shape.mk Option.none)
    (hd : a.callDim = Option.some (k : Int))
    (hk : k ≤ ctx.callDimensionality)
    (hx : a.explicitlyVectorized = false)
    (hs : ctx.strictBroadcasting = false ∨ k = 0 ∨ k = ctx.callDimensionality) :
    finalizeVar ctx (.leafV a) =
      .ok (.leafV { a with vectorMapping := Shape.mk (Option.some (specTrailingAxes ctx.callDimensionality k)) }) := by
  rw [← defaultMapping_eq_spec ctx.callDimensionality k hk]
  simp only [finalizeVar, finalizeAttrs, hm, hx, hd, Shape.valid]
  by_cases hc : ctx.strictBroadcasting = true
  · have h0 : k = 0 ∨ k = ctx.callDimensionality := by
      rcases hs with h | h | h
      · rw [h] at hc; cases hc
      · exact Or.inl h
      · exact Or.inr h
    have hno : ¬(¬k = 0 ∧ ¬k = ctx.callDimensionality) := by tauto
    simp [hc, hno, pure, Except.pure, Except.map, bind, Except.bind]
  · have hcf : ctx.strictBroadcasting = false := by simpa using hc
    simp [hcf, pure, Except.pure, Except.map, bind, Except.bind]

/-- C1 witness: a rank-2 leaf under global dispatch rank 5 receives the
mapping `(3,4)`. -/
theorem claim1_finalize_default_mapping_witness :
    finalizeVar ctxW1 (.leafV aW1) =
      .ok (.leafV { aW1 with vectorMapping := Shape.mk (Option.some (specTrailingAxes 5 2)) }) ∧
    specTrailingAxes 5 2 = [3, 4] :=
  ⟨claim1_finalize_default_mapping ctxW1 aW1 2 rfl (by decide) (by decide) rfl
     (Or.inl rfl), by decide⟩

/-- C2: a successful differentiability pass gives every variable
`differentiable = not no_diff AND vectorType.differentiable AND
marshall.hasDerivative` and the access pair of the spec's §4.4 table for
its io-direction; in Forward (primal) mode the pair is the same whether or
not the variable is differentiable. -/
theorem claim2_differentiability_table (mode : CallMode) (v w : BV)
    (hmode : mode = CallMode.prim ∨ mode = CallMode.bwds)
    (h : calcDiffVar mode v = Except.ok w) :
    (∀ u ∈ nodesOf w,
      u.attrs.differentiable =
        (!noDiff u.attrs.slangModifiers && vtDiff u.attrs &&
          u.attrs.python.hasDerivative) ∧
      u.attrs.access =
        specAccessTable (decide (mode = CallMode.prim)) u.attrs.differentiable
          (ioType u.attrs.slangModifiers)) ∧
    (∀ d₁ d₂ : Bool, ∀ io : IOType,
      accessPair CallMode.prim d₁ io = accessPair CallMode.prim d₂ io) := by
  constructor
  · intro u hu
    obtain ⟨hd, ha⟩ := calcDiffVar_nodes mode v w h u hu
    exact ⟨hd, by rw [ha, accessPair_eq_spec mode hmode]⟩
  · intro d₁ d₂ io
    cases d₁ <;> cases d₂ <;> cases io <;> rfl

/-- C2 witness: an `in` differentiable variable in Backward mode gets the
access pair `(Read, Write)`. -/
theorem claim2_differentiability_table_witness :
    w2out.attrs.access = (AccessType.read, AccessType.write) ∧
    w2out.attrs.differentiable = true := by
  obtain ⟨hd, ha⟩ :=
    (claim2_differentiability_table CallMode.bwds treeW2 w2out (Or.inr rfl) rfl).1
      w2out (List.mem_singleton.mpr rfl)
  exact ⟨by rw [ha]; rfl, by rw [hd]; rfl⟩

/-- C10: in any call mode other than the primal and backward modes (the
unimplemented forward-derivative mode), the differentiability pass assigns
the access pair `(None, None)` to every variable. -/
theorem claim10_other_mode_none_access (mode : CallMode) (v w : BV)
    (h1 : mode ≠ CallMode.prim) (h2 : mode ≠ CallMode.bwds)
    (h : calcDiffVar mode v = Except.ok w) :
    ∀ u ∈ nodesOf w, u.attrs.access = (AccessType.none, AccessType.none) := by
  intro u hu
  obtain ⟨_, ha⟩ := calcDiffVar_nodes mode v w h u hu
  rw [ha]
  cases mode with
  | prim => exact absurd rfl h1
  | bwds => exact absurd rfl h2
  | fwds => rfl

/-- C10 witness: the fall-through (fwds) mode yields `(None, None)` on a
variable that is differentiable and would get `(Read, Write)` in Backward
mode. -/
theorem claim10_other_mode_none_access_witness :
    w10out.attrs.access = (AccessType.none, AccessType.none) :=
  claim10_other_mode_none_access CallMode.fwds treeW2 w10out
    (by decide) (by decide) rfl w10out (List.mem_singleton.mpr rfl)

/-- C5: generating a leaf whose primal access is Write or ReadWrite on a
non-writable marshall raises a hard error at depth 0 and completes without
raising at any depth greater than 0. -/
theorem claim5_nonwritable (ctx : BindContext) (a : Attrs)
    (hacc : a.access.1 = AccessType.write ∨ a.access.1 = AccessType.readwrite)
    (hw : a.python.isWritable = false) :
    genVar ctx 0 (.leafV a) =
      Except.error (.boundVar "Cannot read back value for non-writable type" a.path) ∧
    ∀ depth : Nat, 0 < depth → (genVar ctx depth (.leafV a)).isOk = true := by
  have hcond : (a.access.1 = AccessType.write ∨ a.access.1 = AccessType.readwrite) ∧
      a.python.isWritable = false := ⟨hacc, hw⟩
  constructor
  · simp [genVar, hcond, bind, Except.bind, pure, Except.pure]
  · intro depth hd
    have hne : ¬(depth = 0) := by omega
    simp [genVar, hcond, hne, bind, Except.bind, pure, Except.pure, Except.isOk,
      Except.toBool]

/-- C5 witness: a non-writable write-accessed leaf fails generation at depth
0 and passes at depth 1. -/
theorem claim5_nonwritable_witness :
    genVar ctxW5 0 (.leafV aW5) =
      Except.error (.boundVar "Cannot read back value for non-writable type" "b") ∧
    (genVar ctxW5 1 (.leafV aW5)).isOk = true := by
  have h := claim5_nonwritable ctxW5 aW5 (Or.inl rfl) rfl
  exact ⟨by rw [h.1]; rfl, h.2 1 (by decide)⟩

/-- C6 counterexample: a leaf pinned with the explicit axis tuple `(2,)`
(length k = 1) gets implicit-pass dimensionality `max(mapping)+1 = 3`,
not `k = 1`. -/
theorem claim6_counterexample :
    ((applyExplicitLeafAttrs ctxW6 (.tup [2]) aW6).bind
        (applyImplicitAttrs ctxW6)).map (fun a => a.callDim) =
      Except.ok (Option.some 3) ∧ (3 : Int) ≠ 1 :=
  ⟨rfl, by decide⟩

/-- C6 amended: for a pinned explicit axis tuple, the implicit pass computes
dimensionality `max(mapping) + 1` (0 for the empty tuple — equal to the
tuple length only when the axes are exactly `0..k-1`), and finalize raises
no error for that variable under either `strict_broadcasting` setting,
leaving the pinned mapping unchanged. -/
theorem claim6_pinned_dimensionality (ctx ctx2 : BindContext) (a : Attrs)
    (axes : List Int) :
    ∃ a2, (applyExplicitLeafAttrs ctx (.tup axes) a).bind (applyImplicitAttrs ctx) =
        Except.ok a2 ∧
      a2.callDim = Option.some (dimOfMapping axes) ∧
      a2.vectorMapping = Shape.mk (Option.some axes) ∧
      a2.explicitlyVectorized = true ∧
      finalizeAttrs ctx2 true a2 = Except.ok a2 := by
  have key : (applyExplicitLeafAttrs ctx (.tup axes) a).bind (applyImplicitAttrs ctx) =
      Except.ok { a with
        vectorMapping := Shape.mk (Option.some axes),
        vectorType := Option.some (a.python.reduceType axes.length),
        explicitlyVectorized := true,
        callDim := Option.some (dimOfMapping axes) } := by
    cases axes with
    | nil =>
        simp [applyExplicitLeafAttrs, applyImplicitAttrs, dimOfMapping,
          Shape.valid, Shape.asTuple, Shape.lengthS, bind, Except.bind, pure,
          Except.pure]
    | cons x xs =>
        simp [applyExplicitLeafAttrs, applyImplicitAttrs, dimOfMapping,
          Shape.valid, Shape.asTuple, Shape.lengthS, bind, Except.bind, pure,
          Except.pure]
  refine ⟨_, key, rfl, rfl, rfl, ?_⟩
  simp [finalizeAttrs, Shape.valid, bind, Except.bind, pure, Except.pure]

/-- C7 counterexample: binding a structured variable whose child `y` is
absent from the bound kernel type's fields fails with the raw mapping-lookup
`KeyError "y"`, not a structured `BoundVariableException` carrying the
variable's path. -/
theorem claim7_counterexample :
    bindVar tyP mods0 Option.none treeW7 = Except.error (PyErr.keyError "y") ∧
    isBoundVarErr (bindVar tyP mods0 Option.none treeW7) = false :=
  ⟨rfl, rfl⟩

/-- C7 amended: when some child's name is absent from the parent's bound
kernel type's fields, `bind` fails — no bound tree is returned — but the
failure surfaces as the underlying mapping lookup's own error (`KeyError`
naming only the field), not as a structured error carrying the variable's
path. -/
theorem claim7_bind_missing_field (slang : SlangType) (modifiers : Modifiers)
    (ov : Option String) (a : Attrs) (cs : List BV)
    (h : ∃ c ∈ cs, (slang.findField c.attrs.name).isNone = true) :
    (bindVar slang modifiers ov (.nodeV a cs)).isOk = false := by
  have hch : ∀ modifiers2 : Modifiers,
      (bindChildren slang modifiers2 cs).isOk = false := by
    intro modifiers2
    obtain ⟨c0, hc0, hmiss⟩ := h
    revert hc0
    induction cs with
    | nil => intro hc0; simp at hc0
    | cons c rest ih =>
        intro hc0
        rcases List.mem_cons.mp hc0 with hh | hh
        · subst hh
          cases hf : slang.findField c0.attrs.name with
          | some t => rw [hf] at hmiss; simp at hmiss
          | none =>
              simp [bindChildren, hf, bind, Except.bind, Except.isOk, Except.toBool]
        · cases hf : slang.findField c.attrs.name with
          | none =>
              simp [bindChildren, hf, bind, Except.bind, Except.isOk, Except.toBool]
          | some t =>
              cases hb : bindVar t modifiers2 Option.none c with
              | error e =>
                  simp [bindChildren, hf, hb, bind, Except.bind, Except.isOk,
                    Except.toBool, pure, Except.pure]
              | ok c' =>
                  cases hr : bindChildren slang modifiers2 rest with
                  | error e =>
                      simp [bindChildren, hf, hb, hr, bind, Except.bind,
                        Except.isOk, Except.toBool, pure, Except.pure]
                  | ok rest' =>
                      have := ih hh
                      rw [hr] at this
                      simp [Except.isOk, Except.toBool] at this
  cases ha : bindAttrs a slang modifiers ov with
  | error e =>
      simp [bindVar, ha, bind, Except.bind, Except.isOk, Except.toBool]
  | ok a' =>
      cases hc : bindChildren slang a'.slangModifiers cs with
      | error e =>
          simp [bindVar, ha, hc, bind, Except.bind, Except.isOk, Except.toBool]
      | ok cs' =>
          have := hch a'.slangModifiers
          rw [hc] at this
          simp [Except.isOk, Except.toBool] at this

/-- C7 amended witness: the concrete missing-field tree fails to bind. -/
theorem claim7_bind_missing_field_witness :
    (bindVar tyP mods0 Option.none
      (.nodeV (mkAttrs "arg" (mkMarshall true true 0))
        [.leafV (mkAttrs "y" (mkMarshall true true 0))])).isOk = false :=
  claim7_bind_missing_field tyP mods0 Option.none
    (mkAttrs "arg" (mkMarshall true true 0))
    [.leafV (mkAttrs "y" (mkMarshall true true 0))]
    ⟨.leafV (mkAttrs "y" (mkMarshall true true 0)), List.mem_singleton.mpr rfl,
      by decide⟩

/-- One keyword-override step never changes the keyword argument names. -/
theorem applyExplicitKwStep_keys (ctx : BindContext) (nm : String) (m : EVMap) :
    ∀ kws : List (String × BV),
    ((applyExplicitKwStep ctx nm m kws).1).map Prod.fst = kws.map Prod.fst
  | [] => by
      unfold applyExplicitKwStep
      by_cases hfind : (([] : List (String × BV)).find? (fun p => p.1 == nm)).isNone
      · simp [hfind]
      · simp at hfind
  | (k, v) :: rest => by
      unfold applyExplicitKwStep
      by_cases hfind : (((k, v) :: rest).find? (fun p => p.1 == nm)).isNone
      · simp [hfind]
      · simp only [hfind, if_neg, Bool.false_eq_true, not_false_iff, ite_false]
        by_cases hk : k = nm
        · cases hv : applyExplicitVar ctx m v with
          | error e => simp [hk, hv]
          | ok v' => simp [hk, hv]
        · have := applyExplicitKwStep_keys ctx nm m rest
          cases hr : applyExplicitKwStep ctx nm m rest with
          | mk rest' e =>
              rw [hr] at this
              simp [hk, hr, this]

/-- If some override names a keyword absent from the keyword set, the
keyword loop produces an error. -/
theorem applyExplicitKwargs_unknown (ctx : BindContext) :
    ∀ (ov : List (String × EVMap)) (kws : List (String × BV)),
    (∃ p ∈ ov, ∀ q ∈ kws, q.1 ≠ p.1) →
    ((applyExplicitKwargs ctx ov kws).2).isSome = true
  | [], kws, h => by simp at h
  | (nm, m) :: rest, kws, h => by
      cases hstep : applyExplicitKwStep ctx nm m kws with
      | mk kws' e =>
          cases e with
          | some e0 => simp [applyExplicitKwargs, hstep]
          | none =>
              obtain ⟨p, hp, hq⟩ := h
              rcases List.mem_cons.mp hp with hh | hh
              · exfalso
                have hnone : (kws.find? (fun q => q.1 == nm)) = Option.none := by
                  rw [List.find?_eq_none]
                  intro q hqmem
                  have := hq q hqmem
                  rw [hh] at this
                  simpa using this
                have hcond : (kws.find? (fun q => q.1 == nm)).isNone = true := by
                  rw [hnone]; rfl
                unfold applyExplicitKwStep at hstep
                rw [if_pos hcond] at hstep
                cases hstep
              · have hkeys := applyExplicitKwStep_keys ctx nm m kws
                rw [hstep] at hkeys
                have hq' : ∀ q ∈ kws', q.1 ≠ p.1 := by
                  intro q hqmem
                  have : q.1 ∈ kws'.map Prod.fst := List.mem_map_of_mem _ hqmem
                  rw [hkeys] at this
                  obtain ⟨q0, hq0mem, hq0⟩ := List.mem_map.mp this
                  rw [← hq0]
                  exact hq q0 hq0mem
                have := applyExplicitKwargs_unknown ctx rest kws' ⟨p, hh, hq'⟩
                simpa [applyExplicitKwargs, hstep] using this

/-- C4 counterexample: with one valid positional override and an unknown
keyword override, the call raises the unknown-keyword error, but the first
positional argument has already been mutated — the failure is not
mutation-free. -/
theorem claim4_counterexample :
    (applyExplicitCall ctxW4 [.tup [0]] ovKwBad bcW4).2 =
      Option.some (PyErr.valueError "Unknown keyword argument bad") ∧
    ((applyExplicitCall ctxW4 [.tup [0]] ovKwBad bcW4).1.args.map
      (fun v => v.attrs.explicitlyVectorized)) = [true] ∧
    (bcW4.args.map (fun v => v.attrs.explicitlyVectorized)) = [false] :=
  ⟨rfl, rfl, rfl⟩

/-- C4 amended: the positional and keyword arity-overflow checks fail before
any mutation (the call is returned unchanged); an override naming an unknown
keyword argument also always fails, but only after the positional (and any
earlier keyword) overrides have been applied, so bound variables may already
have been mutated when the error is raised. -/
theorem claim4_explicit_overrides (ctx : BindContext) (ovArgs : List EVMap)
    (ovKwargs : List (String × EVMap)) (bc : BoundCallS) :
    (ovArgs.length > bc.args.length →
      applyExplicitCall ctx ovArgs ovKwargs bc =
        (bc, Option.some (.valueError "Too many arguments supplied for explicit vectorization"))) ∧
    (ovArgs.length ≤ bc.args.length → ovKwargs.length > bc.kwargs.length →
      applyExplicitCall ctx ovArgs ovKwargs bc =
        (bc, Option.some (.valueError "Too many keyword arguments supplied for explicit vectorization"))) ∧
    (ovArgs.length ≤ bc.args.length → ovKwargs.length ≤ bc.kwargs.length →
      (∃ p ∈ ovKwargs, ∀ q ∈ bc.kwargs, q.1 ≠ p.1) →
      ((applyExplicitCall ctx ovArgs ovKwargs bc).2).isSome = true) := by
  refine ⟨?_, ?_, ?_⟩
  · intro h
    simp [applyExplicitCall, h]
  · intro h1 h2
    have : ¬ovArgs.length > bc.args.length := by omega
    simp [applyExplicitCall, this, h2]
  · intro h1 h2 h3
    have g1 : ¬ovArgs.length > bc.args.length := by omega
    have g2 : ¬ovKwargs.length > bc.kwargs.length := by omega
    cases hargs : applyExplicitArgs ctx ovArgs bc.args with
    | mk args' e =>
        cases e with
        | some e0 => simp [applyExplicitCall, g1, g2, hargs]
        | none =>
            have := applyExplicitKwargs_unknown ctx ovKwargs bc.kwargs h3
            cases hkw : applyExplicitKwargs ctx ovKwargs bc.kwargs with
            | mk kwargs' e2 =>
                rw [hkw] at this
                simp [applyExplicitCall, g1, g2, hargs, hkw, this]

/-- C4 amended witness: a concrete arity overflow returns the call unchanged
with the arity error, and a concrete unknown keyword override errors. -/
theorem claim4_explicit_overrides_witness :
    applyExplicitCall ctxW4 [.other, .other] [] bcW4 =
      (bcW4, Option.some (.valueError "Too many arguments supplied for explicit vectorization")) ∧
    ((applyExplicitCall ctxW4 [] ovKwBad bcW4).2).isSome = true := by
  constructor
  · exact (claim4_explicit_overrides ctxW4 [.other, .other] [] bcW4).1 (by decide)
  · exact (claim4_explicit_overrides ctxW4 [] ovKwBad bcW4).2.2 (by decide) (by decide)
      ⟨("bad", .tup [0]), List.mem_singleton.mpr rfl, by decide⟩

/-- The strict-broadcasting check fires on a leaf node exactly when enabled,
not explicitly vectorized, and the dimensionality is neither 0 nor the
dispatch rank; it yields the message naming path, dimensionality and rank. -/
theorem finalizeAttrs_strict_err (ctx : BindContext) (a : Attrs)
    (hs : ctx.strictBroadcasting = true) (hx : a.explicitlyVectorized = false)
    (h0 : a.callDim ≠ Option.some 0)
    (hR : a.callDim ≠ Option.some (ctx.callDimensionality : Int)) :
    finalizeAttrs ctx true a =
      Except.error (.boundVar (strictMsg a.path a.callDim ctx.callDimensionality) a.path) := by
  simp [finalizeAttrs, hs, hx, h0, hR, bind, Except.bind]

/-- Finalize succeeds on a node whose dimensionality is set unless the
strict-broadcasting check fires. -/
theorem finalizeAttrs_ok (ctx : BindContext) (b : Bool) (a : Attrs)
    (hd : (a.callDim).isSome = true)
    (hnb : ctx.strictBroadcasting = false ∨ b = false ∨
      a.explicitlyVectorized = true ∨ a.callDim = Option.some 0 ∨
      a.callDim = Option.some (ctx.callDimensionality : Int)) :
    (finalizeAttrs ctx b a).isOk = true := by
  obtain ⟨d, hdim⟩ := Option.isSome_iff_exists.mp hd
  by_cases hc : (ctx.strictBroadcasting && b && !a.explicitlyVectorized) = true
  · have h0R : a.callDim = Option.some 0 ∨
        a.callDim = Option.some (ctx.callDimensionality : Int) := by
      rcases hnb with h | h | h | h | h
      · rw [h] at hc; simp at hc
      · rw [h] at hc; simp at hc
      · rw [h] at hc; simp at hc
      · exact Or.inl h
      · exact Or.inr h
    rcases h0R with h | h <;>
      by_cases hv : a.vectorMapping.valid = true <;>
        simp [finalizeAttrs, hc, h, hv, hdim, bind, Except.bind, pure,
          Except.pure, Except.isOk, Except.toBool]
  · by_cases hv : a.vectorMapping.valid = true <;>
      simp [finalizeAttrs, hc, hv, hdim, bind, Except.bind, pure, Except.pure,
        Except.isOk, Except.toBool]

mutual

/-- Full characterization of `finalize_mappings` on a tree whose
dimensionalities are all set: it fails exactly when strict broadcasting is
enabled and some node satisfies the strict-check condition, and the error
carries that node's path, dimensionality and the expected rank. -/
theorem finalizeVar_spec (ctx : BindContext) :
    ∀ v : BV, dimsSet v →
      (match finalizeVar ctx v with
       | .ok _ => ¬(ctx.strictBroadcasting = true ∧ ∃ u ∈ nodesOf v, strictBad ctx u)
       | .error e => ctx.strictBroadcasting = true ∧ ∃ u ∈ nodesOf v, strictBad ctx u ∧
           e = .boundVar (strictMsg u.attrs.path u.attrs.callDim ctx.callDimensionality)
                 u.attrs.path)
  | .leafV a, hwf => by
      have hd : (a.callDim).isSome = true := hwf (.leafV a) (List.mem_singleton.mpr rfl)
      by_cases hbad : ctx.strictBroadcasting = true ∧ strictBad ctx (.leafV a)
      · obtain ⟨hs, _, hx, h0, hR⟩ := hbad
        have herr := finalizeAttrs_strict_err ctx a hs hx h0 hR
        simp only [finalizeVar, herr, bind, Except.bind]
        exact ⟨hs, .leafV a, List.mem_singleton.mpr rfl, ⟨rfl, hx, h0, hR⟩, rfl⟩
      · have hnb : ctx.strictBroadcasting = false ∨ true = false ∨
            a.explicitlyVectorized = true ∨ a.callDim = Option.some 0 ∨
            a.callDim = Option.some (ctx.callDimensionality : Int) := by
          by_cases hs : ctx.strictBroadcasting = true
          · have : ¬strictBad ctx (.leafV a) := fun hb => hbad ⟨hs, hb⟩
            unfold strictBad at this
            simp only [BV.isLeaf, BV.attrs] at this
            by_cases hx : a.explicitlyVectorized = true
            · exact Or.inr (Or.inr (Or.inl hx))
            · have hx' : a.explicitlyVectorized = false := by
                revert hx; cases a.explicitlyVectorized <;> simp
              rcases Decidable.em (a.callDim = Option.some 0) with h0 | h0
              · exact Or.inr (Or.inr (Or.inr (Or.inl h0)))
              · rcases Decidable.em
                  (a.callDim = Option.some (ctx.callDimensionality : Int)) with hR | hR
                · exact Or.inr (Or.inr (Or.inr (Or.inr hR)))
                · exact absurd ⟨trivial, hx', h0, hR⟩ this
          · left; revert hs; cases ctx.strictBroadcasting <;> simp
        have hok := finalizeAttrs_ok ctx true a hd hnb
        cases hfa : finalizeAttrs ctx true a with
        | error e => rw [hfa] at hok; simp [Except.isOk, Except.toBool] at hok
        | ok a' =>
            simp only [finalizeVar, hfa, bind, Except.bind, pure, Except.pure]
            intro ⟨hs, u, hu, hb⟩
            simp only [nodesOf, List.mem_singleton] at hu
            subst hu
            exact hbad ⟨hs, hb⟩
  | .nodeV a cs, hwf => by
      have hd : (a.callDim).isSome = true := hwf (.nodeV a cs) (List.mem_cons_self _ _)
      have hwfcs : ∀ u ∈ nodesOfList cs, (u.attrs.callDim).isSome = true := by
        intro u hu
        exact hwf u (by simp only [nodesOf, List.mem_cons]; exact Or.inr hu)
      have hok := finalizeAttrs_ok ctx false a hd (Or.inr (Or.inl rfl))
      have hcs := finalizeList_spec ctx cs hwfcs
      cases hfl : finalizeList ctx cs with
      | error e =>
          rw [hfl] at hcs
          obtain ⟨hs, u, hu, hb, he⟩ := hcs
          simp only [finalizeVar, hfl, bind, Except.bind]
          exact ⟨hs, u, by simp only [nodesOf, List.mem_cons]; exact Or.inr hu, hb, he⟩
      | ok cs' =>
          rw [hfl] at hcs
          cases hfa : finalizeAttrs ctx false a with
          | error e => rw [hfa] at hok; simp [Except.isOk, Except.toBool] at hok
          | ok a' =>
              simp only [finalizeVar, hfl, hfa, bind, Except.bind, pure, Except.pure]
              intro ⟨hs, u, hu, hb⟩
              simp only [nodesOf, List.mem_cons] at hu
              rcases hu with hu | hu
              · subst hu
                obtain ⟨hleaf, _⟩ := hb
                simp [BV.isLeaf] at hleaf
              · exact hcs ⟨hs, u, hu, hb⟩

/-- Forest version of `finalizeVar_spec`. -/
theorem finalizeList_spec (ctx : BindContext) :
    ∀ cs : List BV, (∀ u ∈ nodesOfList cs, (u.attrs.callDim).isSome = true) →
      (match finalizeList ctx cs with
       | .ok _ => ¬(ctx.strictBroadcasting = true ∧ ∃ u ∈ nodesOfList cs, strictBad ctx u)
       | .error e => ctx.strictBroadcasting = true ∧ ∃ u ∈ nodesOfList cs, strictBad ctx u ∧
           e = .boundVar (strictMsg u.attrs.path u.attrs.callDim ctx.callDimensionality)
                 u.attrs.path)
  | [], _ => by
      simp only [finalizeList, nodesOfList, pure, Except.pure]
      intro ⟨_, u, hu, _⟩
      simp at hu
  | c :: cs, hwf => by
      have hwfc : dimsSet c := by
        intro u hu
        exact hwf u (by simp only [nodesOfList, List.mem_append]; exact Or.inl hu)
      have hwfcs : ∀ u ∈ nodesOfList cs, (u.attrs.callDim).isSome = true := by
        intro u hu
        exact hwf u (by simp only [nodesOfList, List.mem_append]; exact Or.inr hu)
      have hc := finalizeVar_spec ctx c hwfc
      have hcs := finalizeList_spec ctx cs hwfcs
      cases hfc : finalizeVar ctx c with
      | error e =>
          rw [hfc] at hc
          obtain ⟨hs, u, hu, hb, he⟩ := hc
          simp only [finalizeList, hfc, bind, Except.bind]
          exact ⟨hs, u, by simp only [nodesOfList, List.mem_append]; exact Or.inl hu, hb, he⟩
      | ok c' =>
          rw [hfc] at hc
          cases hfl : finalizeList ctx cs with
          | error e =>
              rw [hfl] at hcs
              obtain ⟨hs, u, hu, hb, he⟩ := hcs
              simp only [finalizeList, hfc, hfl, bind, Except.bind]
              exact ⟨hs, u, by simp only [nodesOfList, List.mem_append]; exact Or.inr hu,
                hb, he⟩
          | ok cs' =>
              rw [hfl] at hcs
              simp only [finalizeList, hfc, hfl, bind, Except.bind, pure, Except.pure]
              intro ⟨hs, u, hu, hb⟩
              simp only [nodesOfList, List.mem_append] at hu
              rcases hu with hu | hu
              · exact hc ⟨hs, u, hu, hb⟩
              · exact hcs ⟨hs, u, hu, hb⟩

end

/-- C3: with strict broadcasting enabled, finalize raises an error (naming
the variable, its dimensionality and the expected rank) iff some
non-explicitly-vectorized leaf's dimensionality is neither 0 nor the global
dispatch rank (explicitly vectorized leaves and composite nodes never
trigger it); with strict broadcasting disabled finalize always succeeds. -/
theorem claim3_strict_broadcasting (ctx : BindContext) (v : BV) (hwf : dimsSet v) :
    (ctx.strictBroadcasting = true →
      (((finalizeVar ctx v).isOk = false) ↔ ∃ u ∈ nodesOf v, strictBad ctx u) ∧
      ∀ e, finalizeVar ctx v = Except.error e →
        ∃ u ∈ nodesOf v, strictBad ctx u ∧
          e = .boundVar (strictMsg u.attrs.path u.attrs.callDim ctx.callDimensionality)
                u.attrs.path) ∧
    (ctx.strictBroadcasting = false → (finalizeVar ctx v).isOk = true) := by
  have hspec := finalizeVar_spec ctx v hwf
  constructor
  · intro hs
    constructor
    · constructor
      · intro hne
        cases hres : finalizeVar ctx v with
        | error e =>
            rw [hres] at hspec
            exact ⟨hspec.2.choose, hspec.2.choose_spec.1, hspec.2.choose_spec.2.1⟩
        | ok w => rw [hres] at hne; simp [Except.isOk, Except.toBool] at hne
      · intro hex
        cases hres : finalizeVar ctx v with
        | error e => simp [Except.isOk, Except.toBool]
        | ok w =>
            rw [hres] at hspec
            exact absurd ⟨hs, hex⟩ hspec
    · intro e he
      rw [he] at hspec
      exact hspec.2
  · intro hs
    cases hres : finalizeVar ctx v with
    | error e =>
        rw [hres] at hspec
        rw [hspec.1] at hs
        cases hs
    | ok w => simp [Except.isOk, Except.toBool]

/-- C3 witness: a rank-1 non-explicit leaf under rank 3 fails finalize with
strict broadcasting on and succeeds with it off. -/
theorem claim3_strict_broadcasting_witness :
    ((finalizeVar ctxW3 treeW3).isOk = false) ∧
    ((finalizeVar ctxW3off treeW3).isOk = true) := by
  have h1 := claim3_strict_broadcasting ctxW3 treeW3 (by decide)
  have h2 := claim3_strict_broadcasting ctxW3off treeW3 (by decide)
  exact ⟨(h1.1 rfl).1.mpr (by decide), h2.2 rfl⟩

/-- A successful implicit pass leaves a node with a set vector type and a
set dimensionality, and does not touch its mapping or explicit flag. -/
theorem applyImplicitAttrs_ok_state {ctx : BindContext} {a a' : Attrs}
    (h : applyImplicitAttrs ctx a = Except.ok a') :
    (a'.vectorType).isSome = true ∧ (a'.callDim).isSome = true ∧
    a'.vectorMapping = a.vectorMapping ∧
    a'.explicitlyVectorized = a.explicitlyVectorized := by
  by_cases hv : a.vectorMapping.valid = true
  · cases ht : a.vectorMapping.asTuple with
    | nil =>
        simp only [applyImplicitAttrs, hv, ht, bind, Except.bind, pure,
          Except.pure, if_true, Option.isSome_some, Bool.not_true,
          Bool.false_and, Bool.false_eq_true, if_false, ite_true] at h
        obtain rfl := Except.ok.inj h
        exact ⟨rfl, rfl, rfl, rfl⟩
    | cons x xs =>
        simp only [applyImplicitAttrs, hv, ht, bind, Except.bind, pure,
          Except.pure, if_true, Option.isSome_some, Bool.not_true,
          Bool.false_and, Bool.false_eq_true, if_false, ite_true] at h
        obtain rfl := Except.ok.inj h
        exact ⟨rfl, rfl, rfl, rfl⟩
  · have hvf : a.vectorMapping.valid = false := by
      revert hv; cases a.vectorMapping.valid <;> simp
    by_cases hvt : (a.vectorType).isSome = true
    · obtain ⟨vt, hvteq⟩ := Option.isSome_iff_exists.mp hvt
      simp only [applyImplicitAttrs, hvf, hvt, hvteq, bind, Except.bind, pure,
        Except.pure, Bool.false_eq_true, if_false, if_true, Option.isSome_some,
        Bool.not_false, Bool.true_and, Option.isNone_some, Bool.and_false,
        ite_true, ite_false] at h
      obtain rfl := Except.ok.inj h
      exact ⟨by simp [hvteq], rfl, rfl, rfl⟩
    · have hvtn : a.vectorType = Option.none := by
        revert hvt; cases a.vectorType <;> simp
      by_cases hp : a.path = "_result"
      · cases hst : a.slangType with
        | none =>
            simp only [applyImplicitAttrs, hvf, hvtn, hst, hp, bind, Except.bind,
              pure, Except.pure, Bool.false_eq_true, if_false, Option.isSome_none,
              ite_true, ite_false, Bool.not_false, Option.isNone_none,
              Bool.true_and, Bool.and_true] at h
            exact absurd h (by simp)
        | some st =>
            simp only [applyImplicitAttrs, hvf, hvtn, hst, hp, bind, Except.bind,
              pure, Except.pure, Bool.false_eq_true, if_false, Option.isSome_none,
              ite_true, ite_false, Bool.not_false, Option.isNone_none,
              Bool.true_and, Bool.and_true] at h
            obtain rfl := Except.ok.inj h
            exact ⟨rfl, rfl, rfl, rfl⟩
      · cases hst : a.slangType with
        | none =>
            simp only [applyImplicitAttrs, hvf, hvtn, hst, hp, bind, Except.bind,
              pure, Except.pure, Bool.false_eq_true, if_false, Option.isSome_none,
              ite_true, ite_false] at h
            exact absurd h (by simp)
        | some st =>
            simp only [applyImplicitAttrs, hvf, hvtn, hst, hp, bind, Except.bind,
              pure, Except.pure, Bool.false_eq_true, if_false, Option.isSome_none,
              ite_true, ite_false, Option.isNone_some, Bool.and_false,
              Bool.not_false, Option.isSome_some, Bool.true_and] at h
            obtain rfl := Except.ok.inj h
            exact ⟨rfl, rfl, rfl, rfl⟩

/-- A successful finalize leaves a node with a valid mapping and preserves
its vector type. -/
theorem finalizeAttrs_ok_state {ctx : BindContext} {b : Bool} {a a' : Attrs}
    (h : finalizeAttrs ctx b a = Except.ok a') :
    a'.vectorMapping.valid = true ∧ a'.vectorType = a.vectorType := by
  have hrest : ∀ hpre : Except PyErr Unit,
      (hpre >>= fun _ =>
        (if !a.vectorMapping.valid then
          match a.callDim with
          | Option.none => Except.error PyErr.assertionError
          | Option.some d =>
              pure { a with
                vectorMapping := Shape.mk (Option.some (defaultMapping ctx.callDimensionality d)) }
        else
          pure a)) = Except.ok a' →
      a'.vectorMapping.valid = true ∧ a'.vectorType = a.vectorType := by
    intro hpre hx
    obtain ⟨un, hun, hx2⟩ := exceptBind_ok hx
    by_cases hv : a.vectorMapping.valid = true
    · simp only [hv, Bool.not_true, Bool.false_eq_true, if_false, ite_false,
        pure, Except.pure] at hx2
      obtain rfl := Except.ok.inj hx2
      exact ⟨hv, rfl⟩
    · have hvf : a.vectorMapping.valid = false := by
        revert hv; cases a.vectorMapping.valid <;> simp
      cases hd : a.callDim with
      | none =>
          simp only [hvf, Bool.not_false, ite_true, hd] at hx2
          exact absurd hx2 (by simp)
      | some d =>
          simp only [hvf, Bool.not_false, ite_true, hd, pure, Except.pure] at hx2
          obtain rfl := Except.ok.inj hx2
          exact ⟨by simp [Shape.valid], rfl⟩
  unfold finalizeAttrs at h
  by_cases hc : (ctx.strictBroadcasting && b && !a.explicitlyVectorized) = true
  · by_cases hi : (decide (a.callDim ≠ Option.some 0) &&
        decide (a.callDim ≠ Option.some (ctx.callDimensionality : Int))) = true
    · simp only [hc, hi, if_true, ite_true] at h
      exact absurd h (by simp [bind, Except.bind])
    · simp only [hc, hi, if_true, ite_true, Bool.false_eq_true, if_false,
        ite_false] at h
      exact hrest _ h
  · simp only [hc, Bool.false_eq_true, if_false, ite_false] at h
    exact hrest _ h

mutual

/-- Every node of a successful implicit pass's output has a set vector type
and dimensionality. -/
theorem applyImplicitVar_state (ctx : BindContext) :
    ∀ v w, applyImplicitVar ctx v = Except.ok w →
    ∀ u ∈ nodesOf w, (u.attrs.vectorType).isSome = true ∧
      (u.attrs.callDim).isSome = true
  | .leafV a, w, h, u, hu => by
      obtain ⟨a', ha, hw⟩ := exceptBind_ok h
      obtain rfl := Except.ok.inj hw
      simp only [nodesOf, List.mem_singleton] at hu
      subst hu
      obtain ⟨h1, h2, _, _⟩ := applyImplicitAttrs_ok_state ha
      exact ⟨h1, h2⟩
  | .nodeV a cs, w, h, u, hu => by
      obtain ⟨cs', hcs, h2⟩ := exceptBind_ok h
      obtain ⟨a', ha, h3⟩ := exceptBind_ok h2
      obtain rfl := Except.ok.inj h3
      simp only [nodesOf, List.mem_cons] at hu
      rcases hu with hu | hu
      · subst hu
        obtain ⟨h1, h2, _, _⟩ := applyImplicitAttrs_ok_state ha
        exact ⟨h1, h2⟩
      · exact applyImplicitList_state ctx cs cs' hcs u hu

/-- Forest version of `applyImplicitVar_state`. -/
theorem applyImplicitList_state (ctx : BindContext) :
    ∀ cs ws, applyImplicitList ctx cs = Except.ok ws →
    ∀ u ∈ nodesOfList ws, (u.attrs.vectorType).isSome = true ∧
      (u.attrs.callDim).isSome = true
  | [], ws, h, u, hu => by
      obtain rfl := Except.ok.inj h
      simp [nodesOfList] at hu
  | c :: cs, ws, h, u, hu => by
      obtain ⟨c', hc, h2⟩ := exceptBind_ok h
      obtain ⟨cs', hcs, h3⟩ := exceptBind_ok h2
      obtain rfl := Except.ok.inj h3
      simp only [nodesOfList, List.mem_append] at hu
      rcases hu with hu | hu
      · exact applyImplicitVar_state ctx c c' hc u hu
      · exact applyImplicitList_state ctx cs cs' hcs u hu

end

mutual

/-- Every node of a successful finalize's output has a valid mapping, and
has a set vector type whenever the corresponding input node had one. -/
theorem finalizeVar_state (ctx : BindContext) :
    ∀ v w, finalizeVar ctx v = Except.ok w →
    (∀ u ∈ nodesOf v, (u.attrs.vectorType).isSome = true) →
    ∀ u ∈ nodesOf w, u.attrs.vectorMapping.valid = true ∧
      (u.attrs.vectorType).isSome = true
  | .leafV a, w, h, hvt, u, hu => by
      obtain ⟨a', ha, hw⟩ := exceptBind_ok h
      obtain rfl := Except.ok.inj hw
      simp only [nodesOf, List.mem_singleton] at hu
      subst hu
      obtain ⟨h1, h2⟩ := finalizeAttrs_ok_state ha
      refine ⟨h1, ?_⟩
      rw [BV.attrs, h2]
      exact hvt (.leafV a) (List.mem_singleton.mpr rfl)
  | .nodeV a cs, w, h, hvt, u, hu => by
      obtain ⟨cs', hcs, h2⟩ := exceptBind_ok h
      obtain ⟨a', ha, h3⟩ := exceptBind_ok h2
      obtain rfl := Except.ok.inj h3
      simp only [nodesOf, List.mem_cons] at hu
      rcases hu with hu | hu
      · subst hu
        obtain ⟨h1, h2⟩ := finalizeAttrs_ok_state ha
        refine ⟨h1, ?_⟩
        rw [BV.attrs, h2]
        exact hvt (.nodeV a cs) (List.mem_cons_self _ _)
      · exact finalizeList_state ctx cs cs' hcs
          (fun u0 hu0 => hvt u0
            (by simp only [nodesOf, List.mem_cons]; exact Or.inr hu0)) u hu

/-- Forest version of `finalizeVar_state`. -/
theorem finalizeList_state (ctx : BindContext) :
    ∀ cs ws, finalizeList ctx cs = Except.ok ws →
    (∀ u ∈ nodesOfList cs, (u.attrs.vectorType).isSome = true) →
    ∀ u ∈ nodesOfList ws, u.attrs.vectorMapping.valid = true ∧
      (u.attrs.vectorType).isSome = true
  | [], ws, h, _, u, hu => by
      obtain rfl := Except.ok.inj h
      simp [nodesOfList] at hu
  | c :: cs, ws, h, hvt, u, hu => by
      obtain ⟨c', hc, h2⟩ := exceptBind_ok h
      obtain ⟨cs', hcs, h3⟩ := exceptBind_ok h2
      obtain rfl := Except.ok.inj h3
      simp only [nodesOfList, List.mem_append] at hu
      rcases hu with hu | hu
      · exact finalizeVar_state ctx c c' hc
          (fun u0 hu0 => hvt u0
            (by simp only [nodesOfList, List.mem_append]; exact Or.inl hu0)) u hu
      · exact finalizeList_state ctx cs cs' hcs
          (fun u0 hu0 => hvt u0
            (by simp only [nodesOfList, List.mem_append]; exact Or.inr hu0)) u hu

end

/-- C9 counterexample: after the passes a composite node does carry an axis
mapping of its own — on this concrete tree the root is a composite and ends
with the valid assigned mapping `(1,)`. -/
theorem claim9_counterexample :
    ((applyImplicitVar ctxW9 treeW9).bind (finalizeVar ctxW9)).map
      (fun x => (x.isLeaf, x.attrs.vectorMapping.valid, x.attrs.vectorMapping)) =
      Except.ok (false, true, Shape.mk (Option.some [1])) := rfl

/-- C9 amended: after the implicit pass and finalize succeed, every node —
leaf and composite alike — has a valid axis mapping and a set vector type;
composite nodes therefore do carry a (default, trailing-aligned) axis
mapping of their own, though `gen_call_data_code` ignores it and emits the
full dispatch range for them. -/
theorem claim9_valid_after_passes (ctx : BindContext) (v w x : BV)
    (h1 : applyImplicitVar ctx v = Except.ok w)
    (h2 : finalizeVar ctx w = Except.ok x) :
    ∀ u ∈ nodesOf x, u.attrs.vectorMapping.valid = true ∧
      (u.attrs.vectorType).isSome = true := by
  have hvt : ∀ u ∈ nodesOf w, (u.attrs.vectorType).isSome = true :=
    fun u hu => (applyImplicitVar_state ctx v w h1 u hu).1
  exact finalizeVar_state ctx w x h2 hvt

/-- C9 amended witness: on the concrete tree the composite root ends with a
valid mapping and a set vector type. -/
theorem claim9_valid_after_passes_witness :
    w9out.attrs.vectorMapping.valid = true ∧
    (w9out.attrs.vectorType).isSome = true :=
  claim9_valid_after_passes ctxW9 treeW9 w9mid w9out rfl rfl w9out
    (List.mem_cons_self _ _)

/-- The spec-side mapping-constant description coincides with the
statement the source emits. -/
theorem specMapConst_eq_mapConstStmt : specMapConst = mapConstStmt := rfl

/-- `genNodeProp` is monotone under event-list containment. -/
theorem genNodeProp_mono {ctx : BindContext} {u : BV} {evs evs' : List Event}
    (hsub : ∀ x ∈ evs, x ∈ evs') (hp : genNodeProp ctx u evs) :
    genNodeProp ctx u evs' := by
  obtain ⟨h1, h2⟩ := hp
  refine ⟨hsub _ h1, fun hl => ?_⟩
  obtain ⟨h3, h4⟩ := h2 hl
  refine ⟨hsub _ h3, fun prim hne => ?_⟩
  obtain ⟨vt, hvt, h5, h6⟩ := h4 prim hne
  exact ⟨vt, hvt, hsub _ h5, hsub _ h6⟩

/-- A non-`none` access slot of a successful `genPrimEvents` run yields the
`load_<slot>` and `store_<slot>` signature lines. -/
theorem genPrimEvents_ok_mem {a : Attrs} {names : List ChildRef}
    {prim : PrimType} {evs : List Event}
    (h : genPrimEvents a names prim = Except.ok evs)
    (hne : accessOf a prim ≠ AccessType.none) :
    ∃ vt, a.vectorType = Option.some vt ∧
      Event.appendLine (loadSigLine prim (ptnOf vt prim)) ∈ evs ∧
      Event.appendLine (storeSigLine prim (ptnOf vt prim)) ∈ evs := by
  unfold genPrimEvents at h
  rw [if_neg hne] at h
  cases hvt : a.vectorType with
  | none => rw [hvt] at h; exact absurd h (by simp)
  | some vt =>
      rw [hvt] at h
      have hevs : evs = accessorEvents prim (ptnOf vt prim) names :=
        (Except.ok.inj h).symm
      subst hevs
      refine ⟨vt, rfl, ?_, ?_⟩
      · simp [accessorEvents]
      · simp [accessorEvents]

/-- The accessor pair contains no struct declaration. -/
theorem accessorEvents_no_struct (prim : PrimType) (ptn : String)
    (names : List ChildRef) (s : String) :
    Event.beginStruct s ∉ accessorEvents prim ptn names := by
  intro hmem
  simp [accessorEvents, List.mem_append, List.mem_cons, List.mem_flatMap,
    List.mem_map] at hmem

/-- `genPrimEvents` output contains no struct declaration. -/
theorem genPrimEvents_no_struct {a : Attrs} {names : List ChildRef}
    {prim : PrimType} {evs : List Event}
    (h : genPrimEvents a names prim = Except.ok evs) (s : String) :
    Event.beginStruct s ∉ evs := by
  unfold genPrimEvents at h
  by_cases hne : accessOf a prim = AccessType.none
  · rw [if_pos hne] at h
    have : evs = [] := (Except.ok.inj h).symm
    subst this
    simp
  · rw [if_neg hne] at h
    cases hvt : a.vectorType with
    | none => rw [hvt] at h; exact absurd h (by simp)
    | some vt =>
        rw [hvt] at h
        have hevs : evs = accessorEvents prim (ptnOf vt prim) names :=
          (Except.ok.inj h).symm
        subst hevs
        exact accessorEvents_no_struct prim (ptnOf vt prim) names s

/-- The mapping constant is never a struct declaration. -/
theorem mapConstStmt_no_struct (vn : String) (axes : List Int) (s : String) :
    mapConstStmt vn axes ≠ Event.beginStruct s := by
  unfold mapConstStmt
  split <;> simp

mutual

/-- Every node of a tree successfully emitted by `gen_call_data_code`
satisfies its naming obligations, and every struct declaration in the
output is named after some composite node. -/
theorem genVar_names (ctx : BindContext) :
    ∀ (v : BV) (depth : Nat) (evs cd : List Event) (nm : String),
      genVar ctx depth v = Except.ok (evs, cd, nm) →
      (∀ u ∈ nodesOf v, genNodeProp ctx u evs) ∧ genStructNames (nodesOf v) evs
  | .leafV a, depth, evs, cd, nm, h => by
      unfold genVar at h
      have hevs : evs = (a.python.genCalldata.map Event.marshallEmit) ++
          [mapConstStmt a.variableName a.vectorMapping.asTuple] := by
        by_cases hcond : (a.access.1 = AccessType.write ∨
            a.access.1 = AccessType.readwrite) ∧ a.python.isWritable = false
        · by_cases hd : depth = 0
          · rw [if_pos hcond, if_pos hd] at h
            obtain ⟨y, hy, _⟩ := exceptBind_ok h
            exact Except.noConfusion hy
          · rw [if_pos hcond, if_neg hd] at h
            obtain ⟨y, _, hpure⟩ := exceptBind_ok h
            have h5 := Except.ok.inj hpure
            simp only [Prod.mk.injEq] at h5
            exact h5.1.symm
        · rw [if_neg hcond] at h
          obtain ⟨y, _, hpure⟩ := exceptBind_ok h
          have h5 := Except.ok.inj hpure
          simp only [Prod.mk.injEq] at h5
          exact h5.1.symm
      subst hevs
      constructor
      · intro u hu
        simp only [nodesOf, List.mem_singleton] at hu
        subst hu
        constructor
        · rw [specMapConst_eq_mapConstStmt]
          simp [nodeAxes, BV.isLeaf, BV.attrs]
        · intro hl
          simp [BV.isLeaf] at hl
      · intro s hs
        exfalso
        rcases List.mem_append.mp hs with hx | hx
        · obtain ⟨x, _, hx2⟩ := List.mem_map.mp hx
          exact Event.noConfusion hx2
        · rw [List.mem_singleton] at hx
          exact mapConstStmt_no_struct _ _ s hx.symm
  | .nodeV a cs, depth, evs, cd, nm, h => by
      unfold genVar at h
      obtain ⟨t1, hch, h2⟩ := exceptBind_ok h
      obtain ⟨childEvs, childCd, names⟩ := t1
      obtain ⟨primalEvs, hp1, h3⟩ := exceptBind_ok h2
      obtain ⟨derivEvs, hp2, h4⟩ := exceptBind_ok h3
      have htriple := Except.ok.inj h4
      simp only [Prod.mk.injEq] at htriple
      obtain ⟨hevs, _, _⟩ := htriple
      subst hevs
      have hIH := genList_names ctx cs (depth + 1) childEvs childCd names hch
      have hsubChild : ∀ x ∈ childEvs,
          x ∈ Event.beginStruct ("_t_" ++ a.variableName) ::
            (childEvs ++ names.map (fun nm0 =>
                Event.declareEv ("_t_" ++ nm0.childName) nm0.childName) ++
              primalEvs ++ derivEvs ++ [Event.endStruct] ++
              [mapConstStmt a.variableName
                ((List.range ctx.callDimensionality).map (Int.ofNat))]) := by
        intro x hx
        simp only [List.mem_cons, List.mem_append]
        tauto
      constructor
      · intro u hu
        simp only [nodesOf, List.mem_cons] at hu
        rcases hu with hu | hu
        · subst hu
          constructor
          · rw [specMapConst_eq_mapConstStmt]
            simp only [nodeAxes, BV.isLeaf, BV.attrs, Bool.false_eq_true,
              if_false, ite_false]
            simp [List.mem_cons, List.mem_append, List.mem_singleton]
          · intro _
            constructor
            · exact List.mem_cons_self _ _
            · intro prim hne
              cases prim with
              | primal =>
                  obtain ⟨vt, hvt, hl, hstore⟩ := genPrimEvents_ok_mem hp1 hne
                  refine ⟨vt, hvt, ?_, ?_⟩
                  · simp only [List.mem_cons, List.mem_append]
                    tauto
                  · simp only [List.mem_cons, List.mem_append]
                    tauto
              | derivative =>
                  obtain ⟨vt, hvt, hl, hstore⟩ := genPrimEvents_ok_mem hp2 hne
                  refine ⟨vt, hvt, ?_, ?_⟩
                  · simp only [List.mem_cons, List.mem_append]
                    tauto
                  · simp only [List.mem_cons, List.mem_append]
                    tauto
        · exact genNodeProp_mono hsubChild (hIH.1 u hu)
      · intro s hs
        rcases List.mem_cons.mp hs with hs | hs
        · injection hs with hs2
          exact ⟨.nodeV a cs, List.mem_cons_self _ _, rfl, hs2⟩
        rcases List.mem_append.mp hs with hs | hs
        swap
        · rw [List.mem_singleton] at hs
          exact absurd hs.symm (mapConstStmt_no_struct _ _ s)
        rcases List.mem_append.mp hs with hs | hs
        swap
        · rw [List.mem_singleton] at hs
          exact Event.noConfusion hs
        rcases List.mem_append.mp hs with hs | hs
        swap
        · exact absurd hs (genPrimEvents_no_struct hp2 s)
        rcases List.mem_append.mp hs with hs | hs
        swap
        · exact absurd hs (genPrimEvents_no_struct hp1 s)
        rcases List.mem_append.mp hs with hs | hs
        swap
        · obtain ⟨x, _, hx2⟩ := List.mem_map.mp hs
          exact absurd hx2 (by intro hx3; exact Event.noConfusion hx3)
        obtain ⟨u, hu, hl, hn⟩ := hIH.2 s hs
        exact ⟨u, by simp only [nodesOf, List.mem_cons]; exact Or.inr hu, hl, hn⟩

/-- Forest version of `genVar_names` over the children loop. -/
theorem genList_names (ctx : BindContext) :
    ∀ (cs : List BV) (depth : Nat) (evs cd : List Event) (refs : List ChildRef),
      genChildren ctx depth cs = Except.ok (evs, cd, refs) →
      (∀ u ∈ nodesOfList cs, genNodeProp ctx u evs) ∧
      genStructNames (nodesOfList cs) evs
  | [], depth, evs, cd, refs, h => by
      unfold genChildren at h
      have htriple := Except.ok.inj h
      simp only [Prod.mk.injEq] at htriple
      obtain ⟨hevs, _, _⟩ := htriple
      subst hevs
      constructor
      · intro u hu
        simp [nodesOfList] at hu
      · intro s hs
        simp at hs
  | c :: cs, depth, evs, cd, refs, h => by
      unfold genChildren at h
      obtain ⟨t1, hc, h2⟩ := exceptBind_ok h
      obtain ⟨e2, c2, n2⟩ := t1
      cases hvt : c.attrs.vectorType with
      | none =>
          rw [hvt] at h2
          obtain ⟨y, hy, _⟩ := exceptBind_ok h2
          exact Except.noConfusion hy
      | some vt =>
          rw [hvt] at h2
          obtain ⟨ref, _, h3⟩ := exceptBind_ok h2
          obtain ⟨t2, hcs, h4⟩ := exceptBind_ok h3
          obtain ⟨evsRest, cdRest, refsRest⟩ := t2
          have htriple := Except.ok.inj h4
          simp only [Prod.mk.injEq] at htriple
          obtain ⟨hevs, _, _⟩ := htriple
          subst hevs
          have hIHc := genVar_names ctx c depth e2 c2 n2 hc
          have hIHcs := genList_names ctx cs depth evsRest cdRest refsRest hcs
          constructor
          · intro u hu
            simp only [nodesOfList, List.mem_append] at hu
            rcases hu with hu | hu
            · exact genNodeProp_mono (fun x hx => List.mem_append_left _ hx)
                (hIHc.1 u hu)
            · exact genNodeProp_mono (fun x hx => List.mem_append_right _ hx)
                (hIHcs.1 u hu)
          · intro s hs
            rcases List.mem_append.mp hs with hs | hs
            · obtain ⟨u, hu, hl, hn⟩ := hIHc.2 s hs
              refine ⟨u, ?_, hl, hn⟩
              simp only [nodesOfList, List.mem_append]
              exact Or.inl hu
            · obtain ⟨u, hu, hl, hn⟩ := hIHcs.2 s hs
              refine ⟨u, ?_, hl, hn⟩
              simp only [nodesOfList, List.mem_append]
              exact Or.inr hu

end

/-- C8: generated code uses exactly the `_t_<variableName>` /
`_m_<variableName>` / `load_<slot>` / `store_<slot>` naming conventions —
every node emits its axis-mapping constant (a single zero constant for an
empty mapping), every composite emits its `_t_`-named struct and, per
non-`none` access slot, its accessor signature pair, and every emitted
struct declaration is `_t_`-named after a composite node; the emitted text
is a deterministic function of the finalized tree. -/
theorem claim8_codegen_naming (ctx : BindContext) :
    (∀ (v₁ v₂ : BV) (depth : Nat), v₁ = v₂ →
      genVar ctx depth v₁ = genVar ctx depth v₂) ∧
    ∀ (v : BV) (depth : Nat) (evs cd : List Event) (nm : String),
      genVar ctx depth v = Except.ok (evs, cd, nm) →
      (∀ u ∈ nodesOf v, genNodeProp ctx u evs) ∧
      genStructNames (nodesOf v) evs := by
  constructor
  · intro v₁ v₂ depth hv
    rw [hv]
  · intro v depth evs cd nm h
    exact genVar_names ctx v depth evs cd nm h

/-- C8 witness: on a concrete composite-with-leaf tree the root's mapping
constant and `_t_`-named struct declaration appear in the output. -/
theorem claim8_codegen_naming_witness :
    specMapConst "s" (nodeAxes ctxW8 treeW8) ∈ genW8.1 ∧
    Event.beginStruct "_t_s" ∈ genW8.1 := by
  have h := ((claim8_codegen_naming ctxW8).2 treeW8 0 genW8.1 genW8.2.1
    genW8.2.2 rfl).1 treeW8 (List.mem_cons_self _ _)
  obtain ⟨h1, h2⟩ := h
  exact ⟨h1, (h2 rfl).1⟩

end SlangpyBound
